import Mathlib

/-!
Modified UTF-8 codec (file `mutf8/cmutf8.c`)

A shallow embedding of the three C functions `decode_modified_utf8`,
`_encoded_size` and `encode_modified_utf8`, followed by theorems about them.

Conventions of the embedding
* A byte sequence and a codepoint sequence are both `List Nat`.  Bytes are
  values below 256 (`uint8_t`), codepoints are values of `Py_UCS4`.
* C buffers are lists of fixed length; a read or a write at an index outside
  the buffer is reported as `Fault.outOfBounds` instead of being silently
  ignored, so a theorem saying that a function returns `.ok` also says that no
  access left its buffer.
* The decoder's `for` loop moves its index by 1, 2, 3 or 6 per iteration; it
  is embedded as a fuelled loop over an explicit state.  Running out of fuel is
  reported as `Fault.outOfFuel`.
* The Python glue (argument parsing, allocation failure, building the result
  object) is not modelled.
-/

namespace Cmutf8

/-! ## Results -/

/-- The four messages `return_err` is called with, in source order:
"Embedded NULL byte in input.", "2-byte codepoint started, but input too short
to finish.", "3-byte or 6-byte codepoint started, but input too short to
finish." and "6-byte codepoint started, but input too short to finish.". -/
inductive Reason
  | EmbeddedNull
  | Truncated2Byte
  | Truncated3Byte
  | Truncated6Byte
  deriving DecidableEq, Repr

/-- Ways a run of the embedded code can end without a value.
`decodeError r s e` is `return_err`: the `UnicodeDecodeError` built with
start `ix` and end `ix + 1`. The other two are artefacts of the embedding:
an access outside a buffer, and an exhausted iteration budget. -/
inductive Fault
  | decodeError (reason : Reason) (offset_start offset_end : Nat)
  | outOfBounds
  | outOfFuel
  deriving DecidableEq, Repr

/-- Outcome of a run: a value or a fault. -/
inductive Res (α : Type)
  | ok (v : α)
  | error (f : Fault)
  deriving DecidableEq, Repr

/-- Sequencing of fallible steps. -/
def Res.bind {α β : Type} (r : Res α) (k : α → Res β) : Res β :=
  match r with
  | .ok v => k v
  | .error f => .error f

instance : Monad Res where
  pure := Res.ok
  bind := Res.bind

/-- Read `buf[i]`. -/
def readAt (buf : List Nat) (i : Nat) : Res Nat :=
  match buf[i]? with
  | some v => .ok v
  | none => .error .outOfBounds

/-- Store `v` at `buf[i]`. -/
def writeAt (buf : List Nat) (i : Nat) (v : Nat) : Res (List Nat) :=
  if i < buf.length then .ok (buf.set i v) else .error .outOfBounds

/-! ## `decode_modified_utf8` -/

/-- Loop variables of the decoder: the index `ix` into the input, the
codepoint buffer `cp_out` and the number `cp_count` of codepoints written. -/
structure DecodeState where
  ix : Nat
  cp_out : List Nat
  cp_count : Nat
  deriving DecidableEq, Repr

/-- One iteration of `for (ix = 0; ix < view.len; ix++) { ... }`, the
increment included. Called only with `ix < view.len`. -/
def decodeIter (buf : List Nat) (st : DecodeState) : Res DecodeState := do
  let ix := st.ix
  let x ← readAt buf ix
  if x = 0 then
    .error (.decodeError .EmbeddedNull ix (ix + 1))
  else if x < 0x80 then
    -- ASCII/one-byte codepoint.
    let x := x &&& 0x7F
    let cp_out ← writeAt st.cp_out st.cp_count x
    pure ⟨ix + 1, cp_out, st.cp_count + 1⟩
  else if x &&& 0xE0 = 0xC0 then
    -- Two-byte codepoint.
    if ix + 1 ≥ buf.length then
      .error (.decodeError .Truncated2Byte ix (ix + 1))
    else
      let b ← readAt buf (ix + 1)
      let x := ((x &&& 0x1F) <<< 0x06) ||| (b &&& 0x3F)
      let cp_out ← writeAt st.cp_out st.cp_count x
      pure ⟨ix + 1 + 1, cp_out, st.cp_count + 1⟩
  else if x &&& 0xF0 = 0xE0 then
    -- Three-byte codepoint.
    if ix + 2 ≥ buf.length then
      .error (.decodeError .Truncated3Byte ix (ix + 1))
    else
      let b2 ← readAt buf (ix + 1)
      let b3 ← readAt buf (ix + 2)
      let three : Res DecodeState := do
        let x := ((x &&& 0x0F) <<< 0x0C) ||| ((b2 &&& 0x3F) <<< 0x06) ||| (b3 &&& 0x3F)
        let cp_out ← writeAt st.cp_out st.cp_count x
        pure ⟨ix + 2 + 1, cp_out, st.cp_count + 1⟩
      if x = 0xED ∧ b2 &&& 0xF0 = 0xA0 then
        if ix + 5 ≥ buf.length then
          .error (.decodeError .Truncated6Byte ix (ix + 1))
        else
          -- Possible six-byte codepoint.
          let b4 ← readAt buf (ix + 3)
          let b5 ← readAt buf (ix + 4)
          let b6 ← readAt buf (ix + 5)
          if b4 = 0xED ∧ b5 &&& 0xF0 = 0xB0 then
            -- Definite six-byte codepoint.
            let x := 0x10000 ||| ((b2 &&& 0x0F) <<< 0x10) ||| ((b3 &&& 0x3F) <<< 0x0A)
              ||| ((b5 &&& 0x0F) <<< 0x06) ||| (b6 &&& 0x3F)
            let cp_out ← writeAt st.cp_out st.cp_count x
            pure ⟨ix + 5 + 1, cp_out, st.cp_count + 1⟩
          else three
      else three
  else do
    let cp_out ← writeAt st.cp_out st.cp_count x
    pure ⟨ix + 1, cp_out, st.cp_count + 1⟩

/-- The `for` loop, with an iteration budget. -/
def decodeLoop (buf : List Nat) : Nat → DecodeState → Res DecodeState
  | 0, st => if st.ix < buf.length then .error .outOfFuel else .ok st
  | fuel + 1, st =>
    if st.ix < buf.length then
      match decodeIter buf st with
      | .error f => .error f
      | .ok st1 => decodeLoop buf fuel st1
    else .ok st

/-- The function `decode_modified_utf8` on the bytes of `view`: `cp_out` is
`PyMem_Calloc(view.len, sizeof(Py_UCS4))`, the result is the first `cp_count`
entries of `cp_out`. Every iteration advances `ix`, so `view.len` iterations
are budgeted. -/
def decode_modified_utf8 (buf : List Nat) : Res (List Nat) :=
  match decodeLoop buf buf.length ⟨0, List.replicate buf.length 0, 0⟩ with
  | .error f => .error f
  | .ok st => .ok (st.cp_out.take st.cp_count)

/-! ## `_encoded_size` and `encode_modified_utf8` -/

/-- The function `_encoded_size`: the loop over `i < length` reads the
codepoints in order and adds 2, 1, 2, 3 or 6 to `byte_count`. -/
def _encoded_size : List Nat → Nat
  | [] => 0
  | cp :: rest =>
    (if cp = 0x00 then 2
     else if cp ≤ 0x7F then 1
     else if cp ≤ 0x7FF then 2
     else if cp ≤ 0xFFFF then 3
     else 6) + _encoded_size rest

/-- Loop variables of the encoder. -/
structure EncodeState where
  byte_out : List Nat
  byte_count : Nat
  deriving DecidableEq, Repr

/-- The statement `byte_out[byte_count++] = v`; `byte_out` is a `char`
buffer, so the value stored is `v` truncated to eight bits. -/
def putByte (st : EncodeState) (v : Nat) : Res EncodeState := do
  let byte_out ← writeAt st.byte_out st.byte_count (v % 256)
  pure ⟨byte_out, st.byte_count + 1⟩

/-- Body of the encoder's `for` loop for the codepoint `cp`. -/
def encodeIter (cp : Nat) (st : EncodeState) : Res EncodeState := do
  if cp = 0x00 then
    -- NULL byte encoding shortcircuit.
    let st ← putByte st 0xC0
    putByte st 0x80
  else if cp ≤ 0x7F then
    -- ASCII
    putByte st cp
  else if cp ≤ 0x7FF then
    -- Two-byte codepoint.
    let st ← putByte st (0xC0 ||| (0x1F &&& (cp >>> 0x06)))
    putByte st (0x80 ||| (0x3F &&& cp))
  else if cp ≤ 0xFFFF then
    -- Three-byte codepoint
    let st ← putByte st (0xE0 ||| (0x0F &&& (cp >>> 0x0C)))
    let st ← putByte st (0x80 ||| (0x3F &&& (cp >>> 0x06)))
    putByte st (0x80 ||| (0x3F &&& cp))
  else
    -- "Two-times-three" byte codepoint.
    let st ← putByte st 0xED
    let st ← putByte st (0xA0 ||| ((cp >>> 0x10) &&& 0x0F))
    let st ← putByte st (0x80 ||| ((cp >>> 0x0A) &&& 0x3F))
    let st ← putByte st 0xED
    let st ← putByte st (0xB0 ||| ((cp >>> 0x06) &&& 0x0F))
    putByte st (0x80 ||| (cp &&& 0x3F))

/-- The encoder's loop `for (i = 0; i < length; i++)`, which reads the
codepoints `PyUnicode_READ(kind, data, i)` in order. -/
def encodeLoop : List Nat → EncodeState → Res EncodeState
  | [], st => .ok st
  | cp :: rest, st =>
    match encodeIter cp st with
    | .error f => .error f
    | .ok st1 => encodeLoop rest st1

/-- The function `encode_modified_utf8` on the codepoints of `src`:
`byte_out` is `PyMem_Calloc(_encoded_size(data, length, kind), 1)`, the result
is `PyBytes_FromStringAndSize(byte_out, byte_count)`. -/
def encode_modified_utf8 (data : List Nat) : Res (List Nat) :=
  match encodeLoop data ⟨List.replicate (_encoded_size data) 0, 0⟩ with
  | .error f => .error f
  | .ok st => .ok (st.byte_out.take st.byte_count)

/-! ## List-level description of the decoder

`lead` and `scan` describe the decoder on the unread suffix of the input
instead of on an index into it. They are shown equal to the embedded loop in
`decode_modified_utf8_eq_scan` and serve as the vehicle of the proofs. -/

/-- Apply `g` to the value of a successful run. -/
def Res.map {α β : Type} (g : α → β) (r : Res α) : Res β :=
  match r with
  | .ok v => .ok (g v)
  | .error f => .error f

/-- Move the offsets of a decode error `k` bytes to the right. -/
def Fault.shift (k : Nat) : Fault → Fault
  | .decodeError r s e => .decodeError r (s + k) (e + k)
  | .outOfBounds => .outOfBounds
  | .outOfFuel => .outOfFuel

/-- The result `r` of decoding a byte sequence that stands `k` bytes after
the start of the input, behind bytes that decoded to `u`: the codepoints `u`
come first, a decode error has its offsets moved by `k`. -/
def Res.after (u : List Nat) (k : Nat) (r : Res (List Nat)) : Res (List Nat) :=
  match r with
  | .ok v => .ok (u ++ v)
  | .error f => .error (f.shift k)

/-- What one loop iteration does at offset `off` when the unread input is
`l`: the codepoint it stores and the amount the body adds to `ix` (the loop
header adds one more), or the error it returns. -/
def lead (off : Nat) : List Nat → Res (Nat × Nat)
  | [] => .error .outOfBounds
  | x :: rest =>
    if x = 0 then .error (.decodeError .EmbeddedNull off (off + 1))
    else if x < 0x80 then .ok (x &&& 0x7F, 0)
    else if x &&& 0xE0 = 0xC0 then
      match rest with
      | [] => .error (.decodeError .Truncated2Byte off (off + 1))
      | b :: _ => .ok (((x &&& 0x1F) <<< 0x06) ||| (b &&& 0x3F), 1)
    else if x &&& 0xF0 = 0xE0 then
      match rest with
      | b2 :: b3 :: rest3 =>
        if x = 0xED ∧ b2 &&& 0xF0 = 0xA0 then
          match rest3 with
          | b4 :: b5 :: b6 :: _ =>
            if b4 = 0xED ∧ b5 &&& 0xF0 = 0xB0 then
              .ok (0x10000 ||| ((b2 &&& 0x0F) <<< 0x10) ||| ((b3 &&& 0x3F) <<< 0x0A)
                ||| ((b5 &&& 0x0F) <<< 0x06) ||| (b6 &&& 0x3F), 5)
            else
              .ok (((x &&& 0x0F) <<< 0x0C) ||| ((b2 &&& 0x3F) <<< 0x06) ||| (b3 &&& 0x3F), 2)
          | _ => .error (.decodeError .Truncated6Byte off (off + 1))
        else
          .ok (((x &&& 0x0F) <<< 0x0C) ||| ((b2 &&& 0x3F) <<< 0x06) ||| (b3 &&& 0x3F), 2)
      | _ => .error (.decodeError .Truncated3Byte off (off + 1))
    else .ok (x, 0)

/-- The decoder as a recursion over the unread input `l`, which starts at
offset `off` of the whole input. -/
def scan (off : Nat) (l : List Nat) : Res (List Nat) :=
  match l with
  | [] => .ok []
  | x :: rest =>
    match lead off (x :: rest) with
    | .error f => .error f
    | .ok (cp, adv) => (scan (off + adv + 1) (rest.drop adv)).map (fun v => cp :: v)
termination_by l.length
decreasing_by
  simp only [List.length_drop, List.length_cons]
  omega


/-! ## The tier table of the specification -/

/-- The encoded form of one codepoint, row by row as the tier table of the
specification states it (section 4.2). -/
def tierForm (cp : Nat) : List Nat :=
  if cp = 0 then [0xC0, 0x80]
  else if 1 ≤ cp ∧ cp ≤ 0x7F then [cp]
  else if 0x80 ≤ cp ∧ cp ≤ 0x7FF then
    [0xC0 ||| ((cp >>> 6) &&& 0x1F), 0x80 ||| (cp &&& 0x3F)]
  else if 0x800 ≤ cp ∧ cp ≤ 0xFFFF then
    [0xE0 ||| ((cp >>> 12) &&& 0x0F), 0x80 ||| ((cp >>> 6) &&& 0x3F), 0x80 ||| (cp &&& 0x3F)]
  else if cp > 0xFFFF then
    [0xED, 0xA0 ||| ((cp >>> 16) &&& 0x0F), 0x80 ||| ((cp >>> 10) &&& 0x3F),
     0xED, 0xB0 ||| ((cp >>> 6) &&& 0x0F), 0x80 ||| (cp &&& 0x3F)]
  else []

/-- The in-order concatenation of the tier-table forms of the codepoints. -/
def tierEncode : List Nat → List Nat
  | [] => []
  | cp :: rest => tierForm cp ++ tierEncode rest

/-- Successive `byte_out[byte_count++] = v` for the values `v` of a list. -/
def putBytes : List Nat → EncodeState → Res EncodeState
  | [], st => .ok st
  | v :: vs, st => (putByte st v).bind (putBytes vs)

/-! ## The scan step by step, and vocabulary of the claims -/

/-- The loop variables on entry to the decoder's loop: `ix = 0`, the zeroed
buffer `cp_out` of `view.len` entries, `cp_count = 0`. -/
def decodeInit (buf : List Nat) : DecodeState :=
  ⟨0, List.replicate buf.length 0, 0⟩

/-- The loop variables after `n` iterations of the decoder's loop started in
`st`, or on exit from the loop if that comes earlier. -/
def decodeSteps (buf : List Nat) : Nat → DecodeState → Res DecodeState
  | 0, st => .ok st
  | n + 1, st =>
    if st.ix < buf.length then
      match decodeIter buf st with
      | .error f => .error f
      | .ok st1 => decodeSteps buf n st1
    else .ok st

/-- The byte `x` is one that begins a sequence reported with reason `r`:
`0x00` for `EmbeddedNull`, `110xxxxx` for `Truncated2Byte`, `1110xxxx` for
`Truncated3Byte`, `0xED` for `Truncated6Byte`. -/
def leadMatches (r : Reason) (x : Nat) : Bool :=
  match r with
  | .EmbeddedNull => x == 0x00
  | .Truncated2Byte => x &&& 0xE0 == 0xC0
  | .Truncated3Byte => x &&& 0xF0 == 0xE0
  | .Truncated6Byte => x == 0xED

/-- The byte sequence begins with the surrogate-pair pattern
`ED [A0-AF] xx ED [B0-BF] xx`. -/
def sixBytePattern : List Nat → Bool
  | b1 :: b2 :: _ :: b4 :: b5 :: _ :: _ =>
    b1 == 0xED && (decide (0xA0 ≤ b2) && decide (b2 ≤ 0xAF)) &&
      b4 == 0xED && (decide (0xB0 ≤ b5) && decide (b5 ≤ 0xBF))
  | _ => false

/-- The codepoint that comes back for `cp` from decoding after encoding, as
the claim on the exact effect states it: `cp` itself up to `0xFFFF`, and
`0x10000 | (cp & 0xFFFFF)` above. -/
def roundTripImage (cp : Nat) : Nat :=
  if cp ≤ 0xFFFF then cp else 0x10000 ||| (cp &&& 0xFFFFF)

/-! ## Refinement lemmas for the decoder -/

theorem decodeIter_eq_lead (buf : List Nat) (st : DecodeState)
    (hw : st.cp_count < st.cp_out.length) :
    decodeIter buf st =
      match lead st.ix (buf.drop st.ix) with
      | .error f => .error f
      | .ok (cp, adv) => .ok ⟨st.ix + adv + 1, st.cp_out.set st.cp_count cp, st.cp_count + 1⟩ := by
  have hread : ∀ k, readAt buf (st.ix + k) =
      match (buf.drop st.ix)[k]? with
      | some v => .ok v
      | none => .error .outOfBounds := by
    intro k; simp [readAt, List.getElem?_drop]
  have hread0 := hread 0
  rw [Nat.add_zero] at hread0
  have hlen : (buf.drop st.ix).length = buf.length - st.ix := List.length_drop _ _
  generalize buf.drop st.ix = l at *
  rcases l with _ | ⟨x, _ | ⟨b2, _ | ⟨b3, _ | ⟨b4, _ | ⟨b5, _ | ⟨b6, l⟩⟩⟩⟩⟩⟩
  · simp [decodeIter, lead, hread0, bind, Res.bind]
  all_goals
    simp only [List.length_cons, List.length_nil] at hlen
    have hlen2 : buf.length = st.ix + (buf.length - st.ix) := by omega
    rw [← hlen] at hlen2
    simp [decodeIter, lead, hread0, hread, writeAt, hw, bind, Res.bind, pure, hlen2]
    clear hlen hlen2 hread hread0
    split_ifs <;> simp_all


theorem Res.map_map {α β γ : Type} (g : α → β) (h : β → γ) (r : Res α) :
    (r.map g).map h = r.map (fun v => h (g v)) := by
  cases r <;> rfl

theorem lead_adv_lt (off : Nat) (l : List Nat) (cp adv : Nat)
    (h : lead off l = .ok (cp, adv)) : adv < l.length := by
  rcases l with _ | ⟨x, _ | ⟨b2, _ | ⟨b3, _ | ⟨b4, _ | ⟨b5, _ | ⟨b6, l⟩⟩⟩⟩⟩⟩
  · simp [lead] at h
  all_goals
    simp only [lead] at h
    split_ifs at h <;> simp_all <;> omega

theorem take_set_succ (l : List Nat) (n v : Nat) (h : n < l.length) :
    (l.set n v).take (n + 1) = l.take n ++ [v] := by
  induction l generalizing n with
  | nil => simp at h
  | cons a l ih =>
    cases n with
    | zero => simp
    | succ n =>
      simp only [List.length_cons, Nat.add_lt_add_iff_right] at h
      simp [ih n h]

theorem decodeLoop_eq_scan (buf : List Nat) :
    ∀ (fuel : Nat) (st : DecodeState), buf.length - st.ix ≤ fuel → st.ix ≤ buf.length →
      st.cp_count + (buf.length - st.ix) ≤ st.cp_out.length →
      (decodeLoop buf fuel st).map (fun s => s.cp_out.take s.cp_count) =
        (scan st.ix (buf.drop st.ix)).map (fun v => st.cp_out.take st.cp_count ++ v) := by
  intro fuel
  induction fuel with
  | zero =>
    intro st hf hix _
    have hlen : buf.length ≤ st.ix := by omega
    simp [decodeLoop, Nat.not_lt.mpr hlen, List.drop_of_length_le hlen, scan, Res.map]
  | succ fuel ih =>
    intro st hf hix hcp
    by_cases hlt : st.ix < buf.length
    · have hw : st.cp_count < st.cp_out.length := by omega
      have hiter := decodeIter_eq_lead buf st hw
      have hdrop : buf.drop st.ix = buf[st.ix] :: buf.drop (st.ix + 1) :=
        List.drop_eq_getElem_cons hlt
      have hlead := lead_adv_lt st.ix (buf.drop st.ix)
      rw [hdrop] at hiter hlead ⊢
      rw [scan, decodeLoop, if_pos hlt, hiter]
      cases hl : lead st.ix (buf[st.ix] :: buf.drop (st.ix + 1)) with
      | error f => simp [Res.map]
      | ok p =>
        obtain ⟨cp, adv⟩ := p
        have hadv := hlead cp adv hl
        simp only [List.length_cons, List.length_drop] at hadv
        simp only
        rw [ih _ (by simp only; omega) (by simp only; omega)
          (by simp only [List.length_set]; omega)]
        simp only [Res.map_map, List.drop_drop, take_set_succ _ _ _ hw, List.append_assoc,
          List.singleton_append]
        rw [show st.ix + 1 + adv = st.ix + adv + 1 by omega]
    · have hlen : buf.length ≤ st.ix := by omega
      simp [decodeLoop, hlt, List.drop_of_length_le hlen, scan, Res.map]

theorem decode_modified_utf8_eq_scan (buf : List Nat) :
    decode_modified_utf8 buf = scan 0 buf := by
  have h := decodeLoop_eq_scan buf buf.length ⟨0, List.replicate buf.length 0, 0⟩
    (by simp) (by simp) (by simp)
  simp only [List.drop_zero, List.take_zero, List.nil_append] at h
  unfold decode_modified_utf8
  cases hs : scan 0 buf with
  | ok v => rw [hs] at h; revert h; cases decodeLoop buf buf.length ⟨0, List.replicate buf.length 0, 0⟩ <;> simp [Res.map]
  | error f => rw [hs] at h; revert h; cases decodeLoop buf buf.length ⟨0, List.replicate buf.length 0, 0⟩ <;> simp [Res.map]


theorem Res.map_id_fun {α : Type} (r : Res α) : r.map (fun v => v) = r := by
  cases r <;> rfl

theorem lead_shift (off k : Nat) (l : List Nat) :
    lead (off + k) l =
      match lead off l with
      | .ok p => .ok p
      | .error f => .error (f.shift k) := by
  rcases l with _ | ⟨x, _ | ⟨b2, _ | ⟨b3, _ | ⟨b4, _ | ⟨b5, _ | ⟨b6, l⟩⟩⟩⟩⟩⟩
  · simp [lead, Fault.shift]
  all_goals
    simp only [lead]
    split_ifs <;> simp [Fault.shift] <;> omega

theorem scan_shift_aux (k : Nat) : ∀ (n : Nat) (l : List Nat) (off : Nat), l.length ≤ n →
    scan (off + k) l =
      match scan off l with
      | .ok v => .ok v
      | .error f => .error (f.shift k) := by
  intro n
  induction n with
  | zero =>
    intro l off hl
    have : l = [] := List.length_eq_zero.mp (by omega)
    subst this
    simp [scan]
  | succ n ih =>
    intro l off hl
    rcases l with _ | ⟨x, rest⟩
    · simp [scan]
    · rw [scan, scan, lead_shift]
      cases hlead : lead off (x :: rest) with
      | error f => simp
      | ok p =>
        obtain ⟨cp, adv⟩ := p
        simp only
        rw [show off + k + adv + 1 = off + adv + 1 + k by omega,
          ih (rest.drop adv) (off + adv + 1)
            (by simp only [List.length_drop, List.length_cons] at hl ⊢; omega)]
        cases scan (off + adv + 1) (rest.drop adv) <;> simp [Res.map]

theorem scan_shift (off k : Nat) (l : List Nat) :
    scan (off + k) l =
      match scan off l with
      | .ok v => .ok v
      | .error f => .error (f.shift k) :=
  scan_shift_aux k l.length l off (Nat.le_refl _)

theorem lead_append (off : Nat) (p q : List Nat) (r : Nat × Nat)
    (h : lead off p = .ok r) : lead off (p ++ q) = .ok r := by
  rcases p with _ | ⟨x, _ | ⟨b2, _ | ⟨b3, _ | ⟨b4, _ | ⟨b5, _ | ⟨b6, l⟩⟩⟩⟩⟩⟩
  · simp [lead] at h
  all_goals
    simp only [lead, List.cons_append, List.nil_append] at h ⊢
    split_ifs at h ⊢ <;> simp_all


theorem scan_append_aux (q : List Nat) : ∀ (n : Nat) (p : List Nat) (off : Nat) (u : List Nat),
    p.length ≤ n → scan off p = .ok u →
    scan off (p ++ q) = (scan (off + p.length) q).map (fun v => u ++ v) := by
  intro n
  induction n with
  | zero =>
    intro p off u hl h
    have : p = [] := List.length_eq_zero.mp (by omega)
    subst this
    simp only [scan, Res.ok.injEq] at h
    subst h
    simp [Res.map_id_fun]
  | succ n ih =>
    intro p off u hl h
    rcases p with _ | ⟨x, rest⟩
    · simp only [scan, Res.ok.injEq] at h
      subst h
      simp [Res.map_id_fun]
    · rw [scan] at h
      cases hlead : lead off (x :: rest) with
      | error f => rw [hlead] at h; simp at h
      | ok r =>
        obtain ⟨cp, adv⟩ := r
        have hadv := lead_adv_lt _ _ _ _ hlead
        simp only [List.length_cons] at hadv hl
        rw [hlead] at h
        simp only at h
        cases hrest : scan (off + adv + 1) (rest.drop adv) with
        | error f => rw [hrest] at h; simp [Res.map] at h
        | ok u1 =>
          rw [hrest] at h
          simp only [Res.map, Res.ok.injEq] at h
          subst h
          have hih := ih (rest.drop adv) (off + adv + 1) u1
            (by simp only [List.length_drop]; omega) hrest
          have happ := lead_append off (x :: rest) q _ hlead
          rw [List.cons_append] at happ ⊢
          rw [scan, happ]
          simp only
          rw [List.drop_append_of_le_length (by omega), hih, Res.map_map, List.length_drop]
          simp only [List.length_cons, List.cons_append]
          rw [show off + adv + 1 + (rest.length - adv) = off + (rest.length + 1) by omega]

theorem scan_append (off : Nat) (p q u : List Nat) (h : scan off p = .ok u) :
    scan off (p ++ q) = (scan (off + p.length) q).map (fun v => u ++ v) :=
  scan_append_aux q p.length p off u (Nat.le_refl _) h


/-! ## Refinement lemmas for the encoder -/

theorem and_right_lt (b m : Nat) (hm : m < 256) : b &&& m < 256 :=
  Nat.lt_of_le_of_lt Nat.and_le_right hm

theorem putByte_ok (st : EncodeState) (v : Nat) (h : st.byte_count < st.byte_out.length) :
    putByte st v = .ok ⟨st.byte_out.set st.byte_count (v % 256), st.byte_count + 1⟩ := by
  simp [putByte, writeAt, h, bind, Res.bind, pure]

theorem putBytes_spec : ∀ (vs : List Nat) (st : EncodeState), (∀ v ∈ vs, v < 256) →
    st.byte_count + vs.length ≤ st.byte_out.length →
    ∃ st1, putBytes vs st = .ok st1 ∧ st1.byte_out.length = st.byte_out.length ∧
      st1.byte_count = st.byte_count + vs.length ∧
      st1.byte_out.take st1.byte_count = st.byte_out.take st.byte_count ++ vs := by
  intro vs
  induction vs with
  | nil => intro st _ _; exact ⟨st, rfl, rfl, rfl, by simp⟩
  | cons v vs ih =>
    intro st hv hlen
    simp only [List.length_cons] at hlen
    have hlt : st.byte_count < st.byte_out.length := by omega
    obtain ⟨st1, h1, h2, h3, h4⟩ :=
      ih ⟨st.byte_out.set st.byte_count (v % 256), st.byte_count + 1⟩
        (fun w hw => hv w (List.mem_cons_of_mem _ hw))
        (by simp only [List.length_set]; omega)
    simp only at h2 h3 h4
    refine ⟨st1, ?_, ?_, ?_, ?_⟩
    · rw [putBytes, putByte_ok st v hlt]; exact h1
    · rw [h2, List.length_set]
    · rw [h3, List.length_cons]; omega
    · rw [h4, take_set_succ _ _ _ hlt, Nat.mod_eq_of_lt (hv v (List.mem_cons_self _ _))]
      simp

theorem tierForm_lt (cp : Nat) : ∀ v ∈ tierForm cp, v < 256 := by
  unfold tierForm
  split_ifs <;>
    simp only [List.mem_cons, List.mem_singleton, List.not_mem_nil, or_false, forall_eq_or_imp,
      forall_eq, false_imp_iff, implies_true] <;>
    repeat' apply And.intro
  all_goals
    first
      | omega
      | exact Nat.or_lt_two_pow (n := 8) (by omega) (and_right_lt _ _ (by omega))

theorem Res.bind_ok {α : Type} (r : Res α) : r.bind Res.ok = r := by
  cases r <;> rfl

theorem encodeIter_eq_putBytes (cp : Nat) (st : EncodeState) :
    encodeIter cp st = putBytes (tierForm cp) st := by
  unfold encodeIter tierForm
  split_ifs <;> first
    | omega
    | simp [putBytes, bind, Nat.and_comm, Res.bind_ok]

theorem encodeIter_spec (cp : Nat) (st : EncodeState)
    (h : st.byte_count + (tierForm cp).length ≤ st.byte_out.length) :
    ∃ st1, encodeIter cp st = .ok st1 ∧ st1.byte_out.length = st.byte_out.length ∧
      st1.byte_count = st.byte_count + (tierForm cp).length ∧
      st1.byte_out.take st1.byte_count = st.byte_out.take st.byte_count ++ tierForm cp := by
  rw [encodeIter_eq_putBytes]
  exact putBytes_spec _ st (tierForm_lt cp) h


theorem tierForm_length (cp : Nat) :
    (tierForm cp).length =
      if cp = 0x00 then 2 else if cp ≤ 0x7F then 1 else if cp ≤ 0x7FF then 2
      else if cp ≤ 0xFFFF then 3 else 6 := by
  unfold tierForm
  split_ifs <;> first | rfl | omega

theorem encoded_size_eq (s : List Nat) : _encoded_size s = (tierEncode s).length := by
  induction s with
  | nil => rfl
  | cons cp rest ih =>
    rw [_encoded_size, tierEncode, List.length_append, tierForm_length, ih]

theorem encodeLoop_spec : ∀ (s : List Nat) (st : EncodeState),
    st.byte_count + (tierEncode s).length ≤ st.byte_out.length →
    ∃ st1, encodeLoop s st = .ok st1 ∧ st1.byte_out.length = st.byte_out.length ∧
      st1.byte_count = st.byte_count + (tierEncode s).length ∧
      st1.byte_out.take st1.byte_count = st.byte_out.take st.byte_count ++ tierEncode s := by
  intro s
  induction s with
  | nil => intro st _; exact ⟨st, rfl, rfl, rfl, by simp [tierEncode]⟩
  | cons cp rest ih =>
    intro st h
    simp only [tierEncode, List.length_append] at h
    obtain ⟨st1, e1, l1, c1, t1⟩ := encodeIter_spec cp st (by omega)
    obtain ⟨st2, e2, l2, c2, t2⟩ := ih st1 (by omega)
    refine ⟨st2, ?_, ?_, ?_, ?_⟩
    · rw [encodeLoop, e1]; exact e2
    · rw [l2, l1]
    · rw [c2, c1, tierEncode, List.length_append]; omega
    · rw [t2, t1, tierEncode, List.append_assoc]

theorem encodeLoop_init (s : List Nat) :
    ∃ st, encodeLoop s ⟨List.replicate (_encoded_size s) 0, 0⟩ = .ok st ∧
      st.byte_out.length = _encoded_size s ∧ st.byte_count = _encoded_size s ∧
      st.byte_out = tierEncode s := by
  obtain ⟨st, e, l, c, t⟩ := encodeLoop_spec s ⟨List.replicate (_encoded_size s) 0, 0⟩
    (by simp [encoded_size_eq])
  simp only [List.length_replicate, Nat.zero_add, List.take_zero, List.nil_append] at l c t
  refine ⟨st, e, l, by rw [c, encoded_size_eq], ?_⟩
  rw [← t, List.take_of_length_le]
  rw [l, c, encoded_size_eq]

theorem encode_modified_utf8_eq (s : List Nat) :
    encode_modified_utf8 s = .ok (tierEncode s) := by
  obtain ⟨st, e, l, c, t⟩ := encodeLoop_init s
  unfold encode_modified_utf8
  rw [e]
  simp only [Res.ok.injEq]
  rw [List.take_of_length_le (by omega), t]


/-! ## Consequences used by the claims -/

theorem tierEncode_append (s t : List Nat) :
    tierEncode (s ++ t) = tierEncode s ++ tierEncode t := by
  induction s with
  | nil => rfl
  | cons cp rest ih => simp [tierEncode, ih]

theorem or_ne_zero_of_testBit (a b i : Nat) (h : a.testBit i = true) : a ||| b ≠ 0 := by
  intro h0
  have h1 := congrArg (fun n => Nat.testBit n i) h0
  simp [h] at h1

theorem tierForm_ne_zero (cp : Nat) : ∀ v ∈ tierForm cp, v ≠ 0 := by
  unfold tierForm
  split_ifs <;>
    simp only [List.mem_cons, List.mem_singleton, List.not_mem_nil, or_false, forall_eq_or_imp,
      forall_eq, false_imp_iff, implies_true] <;>
    repeat' apply And.intro
  all_goals
    first
      | omega
      | exact or_ne_zero_of_testBit _ _ 7 (by decide)

theorem tierEncode_ne_zero (s : List Nat) : ∀ v ∈ tierEncode s, v ≠ 0 := by
  induction s with
  | nil => intro v hv; simp [tierEncode] at hv
  | cons cp rest ih =>
    intro v hv
    rw [tierEncode, List.mem_append] at hv
    rcases hv with hv | hv
    · exact tierForm_ne_zero cp v hv
    · exact ih v hv

theorem decode_append (p q u : List Nat) (h : decode_modified_utf8 p = .ok u) :
    decode_modified_utf8 (p ++ q) = Res.after u p.length (decode_modified_utf8 q) := by
  rw [decode_modified_utf8_eq_scan] at h ⊢
  rw [decode_modified_utf8_eq_scan, scan_append 0 p q u h, scan_shift 0 p.length q]
  cases scan 0 q <;> simp [Res.map, Res.after]

theorem decode_cons_of_lead (x : Nat) (rest : List Nat) (cp adv : Nat)
    (h : lead 0 (x :: rest) = .ok (cp, adv)) :
    decode_modified_utf8 (x :: rest) =
      Res.after [cp] (adv + 1) (decode_modified_utf8 (rest.drop adv)) := by
  rw [decode_modified_utf8_eq_scan, decode_modified_utf8_eq_scan, scan, h]
  simp only
  rw [show 0 + adv + 1 = 0 + (adv + 1) by omega, scan_shift 0 (adv + 1)]
  cases scan 0 (rest.drop adv) <;> simp [Res.map, Res.after]

theorem decode_of_lead_error (l : List Nat) (f : Fault) (h : lead 0 l = .error f)
    (hne : l ≠ []) : decode_modified_utf8 l = .error f := by
  rcases l with _ | ⟨x, rest⟩
  · exact absurd rfl hne
  · rw [decode_modified_utf8_eq_scan, scan, h]

theorem lead_ge_of_and (c m v : Nat) (h : c &&& m = v) : v ≤ c := by
  rw [← h]; exact Nat.and_le_left

theorem and_E0_of_and_F0 (c : Nat) (h : c &&& 0xF0 = 0xE0) : c &&& 0xE0 = 0xE0 := by
  have h1 : c &&& 0xE0 = (c &&& 0xF0) &&& 0xE0 := by
    rw [Nat.and_assoc, show (0xF0 : Nat) &&& 0xE0 = 0xE0 by decide]
  rw [h1, h]
  decide

theorem decode_null_after (p r u : List Nat) (h : decode_modified_utf8 p = .ok u) :
    decode_modified_utf8 (p ++ 0 :: r) =
      .error (.decodeError .EmbeddedNull p.length (p.length + 1)) := by
  have h0 : lead 0 (0 :: r) = .error (.decodeError .EmbeddedNull 0 (0 + 1)) := by
    simp [lead]
  rw [decode_append p _ u h, decode_of_lead_error (0 :: r) _ h0 (by simp)]
  simp [Res.after, Fault.shift, Nat.add_comm]

theorem lead_two_byte (off c d : Nat) (r : List Nat) (h : c &&& 0xE0 = 0xC0) :
    lead off (c :: d :: r) = .ok (((c &&& 0x1F) <<< 0x06) ||| (d &&& 0x3F), 1) := by
  have hc := lead_ge_of_and c _ _ h
  simp only [lead]
  rw [if_neg (by omega), if_neg (by omega), if_pos h]

theorem lead_three_byte (off c d e : Nat) (r : List Nat) (h : c &&& 0xF0 = 0xE0)
    (hn : ¬ (c = 0xED ∧ d &&& 0xF0 = 0xA0)) :
    lead off (c :: d :: e :: r) =
      .ok (((c &&& 0x0F) <<< 0x0C) ||| ((d &&& 0x3F) <<< 0x06) ||| (e &&& 0x3F), 2) := by
  have hc := lead_ge_of_and c _ _ h
  have h2 := and_E0_of_and_F0 c h
  simp only [lead]
  rw [if_neg (by omega), if_neg (by omega), if_neg (by omega), if_pos h, if_neg hn]

theorem lead_truncated2 (off c : Nat) (h : c &&& 0xE0 = 0xC0) :
    lead off [c] = .error (.decodeError .Truncated2Byte off (off + 1)) := by
  have hc := lead_ge_of_and c _ _ h
  simp only [lead]
  rw [if_neg (by omega), if_neg (by omega), if_pos h]

theorem lead_truncated3 (off c : Nat) (t : List Nat) (h : c &&& 0xF0 = 0xE0)
    (ht : t.length ≤ 1) :
    lead off (c :: t) = .error (.decodeError .Truncated3Byte off (off + 1)) := by
  have hc := lead_ge_of_and c _ _ h
  have h2 := and_E0_of_and_F0 c h
  rcases t with _ | ⟨d, _ | ⟨e, t⟩⟩
  · simp only [lead]
    rw [if_neg (by omega), if_neg (by omega), if_neg (by omega), if_pos h]
  · simp only [lead]
    rw [if_neg (by omega), if_neg (by omega), if_neg (by omega), if_pos h]
  · simp only [List.length_cons] at ht
    omega

/-! ## The loop, iteration by iteration -/

theorem lead_error_shape (off : Nat) (x : Nat) (rest : List Nat) (f : Fault)
    (h : lead off (x :: rest) = .error f) :
    ∃ r, f = .decodeError r off (off + 1) ∧ leadMatches r x = true := by
  rcases rest with _ | ⟨b2, _ | ⟨b3, _ | ⟨b4, _ | ⟨b5, _ | ⟨b6, l⟩⟩⟩⟩⟩ <;>
    simp only [lead] at h <;> split_ifs at h <;>
    simp only [Res.error.injEq, reduceCtorEq] at h <;> subst h <;>
    first
      | exact ⟨.EmbeddedNull, rfl, by simp [leadMatches, *]⟩
      | exact ⟨.Truncated2Byte, rfl, by simp [leadMatches, *]⟩
      | exact ⟨.Truncated3Byte, rfl, by simp [leadMatches, *]⟩
      | exact ⟨.Truncated6Byte, rfl, by simp_all [leadMatches]⟩

theorem decodeIter_step (buf : List Nat) (st st1 : DecodeState) (hcp : st.cp_count ≤ st.ix)
    (hix : st.ix < buf.length) (hlen : st.cp_out.length = buf.length)
    (h : decodeIter buf st = .ok st1) :
    st.ix < st1.ix ∧ st1.ix ≤ buf.length ∧ st1.cp_count = st.cp_count + 1 ∧
      st1.cp_out.length = buf.length := by
  rw [decodeIter_eq_lead buf st (by omega)] at h
  cases hl : lead st.ix (buf.drop st.ix) with
  | error f => rw [hl] at h; simp at h
  | ok p =>
    obtain ⟨cp, adv⟩ := p
    have hadv := lead_adv_lt _ _ _ _ hl
    rw [List.length_drop] at hadv
    rw [hl] at h
    simp only [Res.ok.injEq] at h
    subst h
    simp only [List.length_set]
    refine ⟨?_, ?_, ?_, ?_⟩
    all_goals first | trivial | omega

theorem decodeIter_fault (buf : List Nat) (st : DecodeState) (f : Fault)
    (hcp : st.cp_count ≤ st.ix) (hix : st.ix < buf.length)
    (hlen : st.cp_out.length = buf.length) (h : decodeIter buf st = .error f) :
    ∃ r, f = .decodeError r st.ix (st.ix + 1) ∧
      ∃ x, buf[st.ix]? = some x ∧ leadMatches r x = true := by
  rw [decodeIter_eq_lead buf st (by omega), List.drop_eq_getElem_cons hix] at h
  cases hl : lead st.ix (buf[st.ix] :: buf.drop (st.ix + 1)) with
  | ok p => rw [hl] at h; simp at h
  | error g =>
    rw [hl] at h
    simp only [Res.error.injEq] at h
    subst h
    obtain ⟨r, hr, hm⟩ := lead_error_shape _ _ _ _ hl
    exact ⟨r, hr, buf[st.ix], List.getElem?_eq_getElem hix, hm⟩

theorem decodeSteps_inv (buf : List Nat) : ∀ (n : Nat) (st st1 : DecodeState),
    st.cp_count ≤ st.ix → st.ix ≤ buf.length → st.cp_out.length = buf.length →
    decodeSteps buf n st = .ok st1 →
    st1.cp_count ≤ st1.ix ∧ st1.ix ≤ buf.length ∧ st1.cp_out.length = buf.length := by
  intro n
  induction n with
  | zero =>
    intro st st1 h1 h2 h3 h
    simp only [decodeSteps, Res.ok.injEq] at h
    subst h
    exact ⟨h1, h2, h3⟩
  | succ n ih =>
    intro st st1 h1 h2 h3 h
    rw [decodeSteps] at h
    by_cases hlt : st.ix < buf.length
    · rw [if_pos hlt] at h
      cases hi : decodeIter buf st with
      | error f => rw [hi] at h; simp at h
      | ok st2 =>
        rw [hi] at h
        obtain ⟨a, b, c, d⟩ := decodeIter_step buf st st2 h1 hlt h3 hi
        exact ih st2 st1 (by omega) b d h
    · rw [if_neg hlt] at h
      simp only [Res.ok.injEq] at h
      subst h
      exact ⟨h1, h2, h3⟩

theorem decodeInit_inv (buf : List Nat) :
    (decodeInit buf).cp_count ≤ (decodeInit buf).ix ∧ (decodeInit buf).ix ≤ buf.length ∧
      (decodeInit buf).cp_out.length = buf.length := by
  simp [decodeInit]

theorem decodeLoop_error_reach (buf : List Nat) : ∀ (fuel : Nat) (st : DecodeState) (f : Fault),
    decodeLoop buf fuel st = .error f →
    f = .outOfFuel ∨ ∃ n st1, decodeSteps buf n st = .ok st1 ∧ st1.ix < buf.length ∧
      decodeIter buf st1 = .error f := by
  intro fuel
  induction fuel with
  | zero =>
    intro st f h
    rw [decodeLoop] at h
    split_ifs at h
    · simp only [Res.error.injEq] at h
      exact Or.inl h.symm
  | succ fuel ih =>
    intro st f h
    rw [decodeLoop] at h
    split_ifs at h with hlt
    cases hi : decodeIter buf st with
    | error g =>
      rw [hi] at h
      simp only [Res.error.injEq] at h
      subst h
      exact Or.inr ⟨0, st, rfl, hlt, hi⟩
    | ok st2 =>
      rw [hi] at h
      rcases ih st2 f h with h0 | ⟨n, st1, hs, hl, he⟩
      · exact Or.inl h0
      · refine Or.inr ⟨n + 1, st1, ?_, hl, he⟩
        rw [decodeSteps, if_pos hlt, hi]
        exact hs

theorem decodeLoop_ok_steps (buf : List Nat) : ∀ (fuel : Nat) (st st1 : DecodeState),
    decodeLoop buf fuel st = .ok st1 →
    decodeSteps buf fuel st = .ok st1 ∧ buf.length ≤ st1.ix := by
  intro fuel
  induction fuel with
  | zero =>
    intro st st1 h
    rw [decodeLoop] at h
    split_ifs at h with hlt
    simp only [Res.ok.injEq] at h
    subst h
    exact ⟨rfl, by omega⟩
  | succ fuel ih =>
    intro st st1 h
    rw [decodeLoop] at h
    rw [decodeSteps]
    split_ifs at h ⊢ with hlt
    · cases hi : decodeIter buf st with
      | error g => rw [hi] at h; simp at h
      | ok st2 =>
        rw [hi] at h
        exact ih st2 st1 h
    · simp only [Res.ok.injEq] at h
      subst h
      exact ⟨rfl, by omega⟩

theorem scan_fault_shape : ∀ (n : Nat) (l : List Nat) (off : Nat) (f : Fault),
    l.length ≤ n → scan off l = .error f → ∃ r s, f = .decodeError r s (s + 1) := by
  intro n
  induction n with
  | zero =>
    intro l off f hl h
    have : l = [] := List.length_eq_zero.mp (by omega)
    subst this
    simp [scan] at h
  | succ n ih =>
    intro l off f hl h
    rcases l with _ | ⟨x, rest⟩
    · simp [scan] at h
    · rw [scan] at h
      cases hlead : lead off (x :: rest) with
      | error g =>
        rw [hlead] at h
        simp only [Res.error.injEq] at h
        subst h
        obtain ⟨r, hr, _⟩ := lead_error_shape _ _ _ _ hlead
        exact ⟨r, off, hr⟩
      | ok p =>
        obtain ⟨cp, adv⟩ := p
        rw [hlead] at h
        simp only at h
        cases hs : scan (off + adv + 1) (rest.drop adv) with
        | ok v => rw [hs] at h; simp [Res.map] at h
        | error g =>
          rw [hs] at h
          simp only [Res.map, Res.error.injEq] at h
          subst h
          exact ih (rest.drop adv) _ _
            (by simp only [List.length_drop, List.length_cons] at hl ⊢; omega) hs

theorem decode_fault_shape (b : List Nat) (f : Fault) (h : decode_modified_utf8 b = .error f) :
    ∃ r s, f = .decodeError r s (s + 1) := by
  rw [decode_modified_utf8_eq_scan] at h
  exact scan_fault_shape b.length b 0 f (Nat.le_refl _) h

theorem decode_error_reach (b : List Nat) (f : Fault) (h : decode_modified_utf8 b = .error f) :
    ∃ n st, decodeSteps b n (decodeInit b) = .ok st ∧ st.ix < b.length ∧
      decodeIter b st = .error f := by
  obtain ⟨r, s, hf⟩ := decode_fault_shape b f h
  unfold decode_modified_utf8 at h
  cases hl : decodeLoop b b.length ⟨0, List.replicate b.length 0, 0⟩ with
  | ok st => rw [hl] at h; simp at h
  | error g =>
    rw [hl] at h
    simp only [Res.error.injEq] at h
    subst h
    rcases decodeLoop_error_reach b _ _ _ hl with h0 | h1
    · rw [hf] at h0; cases h0
    · exact h1

theorem decodeLoop_of_steps_error (buf : List Nat) :
    ∀ (n fuel : Nat) (st st1 : DecodeState) (f : Fault),
    st.cp_count ≤ st.ix → st.cp_out.length = buf.length → buf.length - st.ix ≤ fuel →
    decodeSteps buf n st = .ok st1 → st1.ix < buf.length → decodeIter buf st1 = .error f →
    decodeLoop buf fuel st = .error f := by
  intro n
  induction n with
  | zero =>
    intro fuel st st1 f _ _ hfuel hs hlt hit
    simp only [decodeSteps, Res.ok.injEq] at hs
    subst hs
    obtain ⟨fuel1, rfl⟩ : ∃ k, fuel = k + 1 := ⟨fuel - 1, by omega⟩
    rw [decodeLoop, if_pos hlt, hit]
  | succ n ih =>
    intro fuel st st1 f hcp hlen hfuel hs hlt hit
    rw [decodeSteps] at hs
    by_cases hix : st.ix < buf.length
    · rw [if_pos hix] at hs
      obtain ⟨fuel1, rfl⟩ : ∃ k, fuel = k + 1 := ⟨fuel - 1, by omega⟩
      cases hi : decodeIter buf st with
      | error g => rw [hi] at hs; simp at hs
      | ok st2 =>
        rw [hi] at hs
        obtain ⟨a, _, c, d⟩ := decodeIter_step buf st st2 hcp hix hlen hi
        rw [decodeLoop, if_pos hix, hi]
        exact ih fuel1 st2 st1 f (by omega) d (by omega) hs hlt hit
    · rw [if_neg hix] at hs
      simp only [Res.ok.injEq] at hs
      subst hs
      exact absurd hlt hix

theorem decode_of_steps_error (b : List Nat) (n : Nat) (st : DecodeState) (f : Fault)
    (hs : decodeSteps b n (decodeInit b) = .ok st) (hlt : st.ix < b.length)
    (hit : decodeIter b st = .error f) : decode_modified_utf8 b = .error f := by
  have h := decodeLoop_of_steps_error b n b.length (decodeInit b) st f (decodeInit_inv b).1
    (decodeInit_inv b).2.2 (by simp [decodeInit]) hs hlt hit
  unfold decode_modified_utf8
  unfold decodeInit at h
  rw [h]

theorem decodeIter_null (buf : List Nat) (st : DecodeState) (h : buf[st.ix]? = some 0) :
    decodeIter buf st = .error (.decodeError .EmbeddedNull st.ix (st.ix + 1)) := by
  simp [decodeIter, readAt, h, bind, Res.bind]

set_option maxRecDepth 100000 in
theorem and_F0_eq_A0_iff : ∀ b, b < 256 → (b &&& 0xF0 = 0xA0 ↔ 0xA0 ≤ b ∧ b ≤ 0xAF) := by
  decide

set_option maxRecDepth 100000 in
theorem and_F0_eq_B0_iff : ∀ b, b < 256 → (b &&& 0xF0 = 0xB0 ↔ 0xB0 ≤ b ∧ b ≤ 0xBF) := by
  decide

set_option maxRecDepth 100000 in
theorem passthrough_masks : ∀ v, v < 256 → (0x80 ≤ v ∧ v ≤ 0xBF) ∨ (0xF0 ≤ v ∧ v ≤ 0xFF) →
    v &&& 0xE0 ≠ 0xC0 ∧ v &&& 0xF0 ≠ 0xE0 := by
  decide

theorem ED_and_E0 : (0xED : Nat) &&& 0xE0 = 0xE0 := by decide

theorem ED_and_F0 : (0xED : Nat) &&& 0xF0 = 0xE0 := by decide

theorem ED_and_0F_shift : ((0xED : Nat) &&& 0x0F) <<< 0x0C = 0xD000 := by decide

theorem lead_six_byte (off b2 b3 b5 b6 : Nat) (r : List Nat) (h2 : b2 &&& 0xF0 = 0xA0)
    (h5 : b5 &&& 0xF0 = 0xB0) :
    lead off (0xED :: b2 :: b3 :: 0xED :: b5 :: b6 :: r) =
      .ok (0x10000 ||| ((b2 &&& 0x0F) <<< 0x10) ||| ((b3 &&& 0x3F) <<< 0x0A)
        ||| ((b5 &&& 0x0F) <<< 0x06) ||| (b6 &&& 0x3F), 5) := by
  simp [lead, h2, h5, ED_and_E0, ED_and_F0]

theorem lead_near_match (off b2 b3 b4 b5 b6 : Nat) (r : List Nat)
    (hn : ¬ (b4 = 0xED ∧ b5 &&& 0xF0 = 0xB0)) :
    lead off (0xED :: b2 :: b3 :: b4 :: b5 :: b6 :: r) =
      .ok (0xD000 ||| ((b2 &&& 0x3F) <<< 0x06) ||| (b3 &&& 0x3F), 2) := by
  simp only [lead, ED_and_E0, ED_and_F0, ED_and_0F_shift]
  split_ifs <;> simp_all

theorem lead_ED_plain (off b2 b3 : Nat) (r : List Nat) (h2 : ¬ b2 &&& 0xF0 = 0xA0) :
    lead off (0xED :: b2 :: b3 :: r) =
      .ok (0xD000 ||| ((b2 &&& 0x3F) <<< 0x06) ||| (b3 &&& 0x3F), 2) := by
  simp [lead, h2, ED_and_E0, ED_and_F0, ED_and_0F_shift]

theorem lead_truncated6 (off b2 b3 : Nat) (r : List Nat) (h2 : b2 &&& 0xF0 = 0xA0)
    (hr : r.length ≤ 2) :
    lead off (0xED :: b2 :: b3 :: r) = .error (.decodeError .Truncated6Byte off (off + 1)) := by
  rcases r with _ | ⟨b4, _ | ⟨b5, _ | ⟨b6, r⟩⟩⟩
  · simp [lead, h2, ED_and_E0, ED_and_F0, ED_and_0F_shift]
  · simp [lead, h2, ED_and_E0, ED_and_F0, ED_and_0F_shift]
  · simp [lead, h2, ED_and_E0, ED_and_F0, ED_and_0F_shift]
  · simp only [List.length_cons] at hr
    omega

theorem lead_passthrough (off v : Nat) (r : List Nat)
    (hv : (0x80 ≤ v ∧ v ≤ 0xBF) ∨ (0xF0 ≤ v ∧ v ≤ 0xFF)) :
    lead off (v :: r) = .ok (v, 0) := by
  have hm := passthrough_masks v (by omega) hv
  simp only [lead]
  rw [if_neg (by omega), if_neg (by omega), if_neg hm.1, if_neg hm.2]

theorem lead_take (off x : Nat) (rest : List Nat) (cp adv m : Nat)
    (h : lead off (x :: rest) = .ok (cp, adv)) :
    lead off (x :: rest.take (m + adv)) = .ok (cp, adv) ∨
      (adv = 2 ∧ m < 3 ∧
        lead off (x :: rest.take (m + adv)) =
          .error (.decodeError .Truncated6Byte off (off + 1))) := by
  rcases rest with _ | ⟨b2, _ | ⟨b3, _ | ⟨b4, _ | ⟨b5, _ | ⟨b6, l⟩⟩⟩⟩⟩ <;>
    simp only [lead] at h <;> split_ifs at h <;>
    simp only [Res.ok.injEq, Prod.mk.injEq, reduceCtorEq] at h <;>
    obtain ⟨rfl, rfl⟩ := h <;>
    rcases m with _ | _ | _ | m <;>
    simp [lead, List.take_succ_cons, ED_and_E0, ED_and_F0, *]

theorem scan_error_location : ∀ (n : Nat) (l : List Nat) (off : Nat) (r : Reason) (s e : Nat),
    l.length ≤ n → scan off l = .error (.decodeError r s e) →
    off ≤ s ∧ s - off < l.length ∧
      ((∃ u, scan off (l.take (s - off)) = .ok u) ∨
        ∃ t, scan off (l.take (s - off)) = .error (.decodeError .Truncated6Byte t (t + 1)) ∧
          t + 3 ≤ s ∧ s ≤ t + 5) := by
  intro n
  induction n with
  | zero =>
    intro l off r s e hl h
    have : l = [] := List.length_eq_zero.mp (by omega)
    subst this
    simp [scan] at h
  | succ n ih =>
    intro l off r s e hl h
    rcases l with _ | ⟨x, rest⟩
    · simp [scan] at h
    · rw [scan] at h
      cases hlead : lead off (x :: rest) with
      | error g =>
        rw [hlead] at h
        simp only [Res.error.injEq] at h
        obtain ⟨r1, hr1, _⟩ := lead_error_shape _ _ _ _ hlead
        rw [hr1] at h
        simp only [Fault.decodeError.injEq] at h
        obtain ⟨_, hs, _⟩ := h
        subst hs
        refine ⟨Nat.le_refl _, by simp, Or.inl ⟨[], ?_⟩⟩
        simp [scan]
      | ok p =>
        obtain ⟨cp, adv⟩ := p
        rw [hlead] at h
        simp only at h
        have hadv := lead_adv_lt _ _ _ _ hlead
        simp only [List.length_cons] at hadv hl
        cases hs : scan (off + adv + 1) (rest.drop adv) with
        | ok v => rw [hs] at h; simp [Res.map] at h
        | error g =>
          rw [hs] at h
          simp only [Res.map, Res.error.injEq] at h
          subst h
          obtain ⟨h1, h2, h3⟩ := ih (rest.drop adv) (off + adv + 1) r s e
            (by simp only [List.length_drop]; omega) hs
          rw [List.length_drop] at h2
          refine ⟨by omega, by simp only [List.length_cons]; omega, ?_⟩
          obtain ⟨m, hm⟩ : ∃ m, s - (off + adv + 1) = m := ⟨_, rfl⟩
          rw [hm] at h3
          have htake : (x :: rest).take (s - off) = x :: rest.take (m + adv) := by
            rw [show s - off = (m + adv) + 1 by omega, List.take_succ_cons]
          have hdrop : (rest.take (m + adv)).drop adv = (rest.drop adv).take m := by
            rw [List.take_drop, Nat.add_comm]
          rw [htake]
          rcases lead_take off x rest cp adv m hlead with hk | ⟨ha, hm3, hk⟩
          · rw [scan, hk]
            simp only
            rw [hdrop]
            rcases h3 with ⟨u, hu⟩ | ⟨t, ht, ht1, ht2⟩
            · exact Or.inl ⟨cp :: u, by rw [hu]; rfl⟩
            · exact Or.inr ⟨t, by rw [ht]; rfl, ht1, ht2⟩
          · refine Or.inr ⟨off, ?_, by omega, by omega⟩
            rw [scan, hk]

theorem lead_near_match_of_bytes (off b2 b3 : Nat) (r : List Nat) (hr : 3 ≤ r.length)
    (hbytes : ∀ x ∈ r, x < 256)
    (hn : r[0]? ≠ some 0xED ∨ ∀ b5, r[1]? = some b5 → ¬ (0xB0 ≤ b5 ∧ b5 ≤ 0xBF)) :
    lead off (0xED :: b2 :: b3 :: r) =
      .ok (0xD000 ||| ((b2 &&& 0x3F) <<< 0x06) ||| (b3 &&& 0x3F), 2) := by
  rcases r with _ | ⟨b4, _ | ⟨b5, _ | ⟨b6, r⟩⟩⟩
  · simp at hr
  · simp at hr
  · simp at hr
  · apply lead_near_match
    rintro ⟨h4, h5⟩
    have hb5 : b5 < 256 := hbytes b5 (by simp)
    rcases hn with hn | hn
    · exact hn (by simp [h4])
    · exact hn b5 (by simp) ((and_F0_eq_B0_iff b5 hb5).mp h5)

theorem decode_ok_final (b u : List Nat) (h : decode_modified_utf8 b = .ok u) :
    ∃ st, decodeSteps b b.length (decodeInit b) = .ok st ∧ b.length ≤ st.ix ∧
      u = st.cp_out.take st.cp_count := by
  unfold decode_modified_utf8 at h
  cases hl : decodeLoop b b.length ⟨0, List.replicate b.length 0, 0⟩ with
  | error g => rw [hl] at h; simp at h
  | ok st =>
    rw [hl] at h
    simp only [Res.ok.injEq] at h
    obtain ⟨h1, h2⟩ := decodeLoop_ok_steps b _ _ _ hl
    exact ⟨st, h1, h2, h.symm⟩

/-! ## Decoding what the encoder wrote -/

theorem shr_and_mask (cp s w : Nat) : (cp >>> s) &&& (2 ^ w - 1) = cp / 2 ^ s % 2 ^ w := by
  rw [Nat.and_pow_two_sub_one_eq_mod, Nat.shiftRight_eq_div_pow]

theorem and_mask (cp w : Nat) : cp &&& (2 ^ w - 1) = cp % 2 ^ w :=
  Nat.and_pow_two_sub_one_eq_mod cp w

theorem shl_or (a b n : Nat) (hb : b < 2 ^ n) : (a <<< n) ||| b = a * 2 ^ n + b := by
  rw [Nat.shiftLeft_eq, Nat.mul_comm, ← Nat.mul_add_lt_is_or hb]

theorem shl6_or (a b : Nat) (hb : b < 64) : (a <<< 6) ||| b = a * 64 + b :=
  shl_or a b 6 hb

theorem shl10_or (a b : Nat) (hb : b < 1024) : (a <<< 10) ||| b = a * 1024 + b :=
  shl_or a b 10 hb

theorem shl12_or (a b : Nat) (hb : b < 4096) : (a <<< 12) ||| b = a * 4096 + b :=
  shl_or a b 12 hb

theorem shl16_or (a b : Nat) (hb : b < 65536) : (a <<< 16) ||| b = a * 65536 + b :=
  shl_or a b 16 hb

set_option maxRecDepth 100000 in
theorem two_byte_lead_facts : ∀ a, a < 32 →
    (0xC0 ||| a) &&& 0xE0 = 0xC0 ∧ (0xC0 ||| a) &&& 0x1F = a := by
  decide

set_option maxRecDepth 100000 in
theorem continuation_facts : ∀ b, b < 64 →
    (0x80 ||| b) &&& 0x3F = b ∧ ((0x80 ||| b) &&& 0xF0 = 0xA0 → 32 ≤ b ∧ b < 48) := by
  decide

set_option maxRecDepth 100000 in
theorem three_byte_lead_facts : ∀ a, a < 16 →
    (0xE0 ||| a) &&& 0xF0 = 0xE0 ∧ (0xE0 ||| a) &&& 0x0F = a ∧
      (0xE0 ||| a = 0xED → a = 13) := by
  decide

set_option maxRecDepth 100000 in
theorem six_byte_facts : ∀ h, h < 16 →
    (0xA0 ||| h) &&& 0xF0 = 0xA0 ∧ (0xA0 ||| h) &&& 0x0F = h ∧
      (0xB0 ||| h) &&& 0xF0 = 0xB0 ∧ (0xB0 ||| h) &&& 0x0F = h := by
  decide

theorem lead_tierForm (off cp : Nat) (rest : List Nat)
    (hs : ¬ (0xD800 ≤ cp ∧ cp ≤ 0xDBFF)) :
    lead off (tierForm cp ++ rest) = .ok (roundTripImage cp, (tierForm cp).length - 1) := by
  have e6 : cp &&& 0x3F = cp % 64 := and_mask cp 6
  unfold tierForm roundTripImage
  split_ifs with h0 h1 h2 h3 h4 h5 h6 h7 h8 h9 <;> try omega
  · -- codepoint 0
    subst h0
    simp only [List.cons_append, List.nil_append, List.length_cons, List.length_nil]
    rw [lead_two_byte off 0xC0 0x80 rest (by decide)]
    rfl
  · -- one byte
    have e7 : cp &&& 0x7F = cp % 128 := and_mask cp 7
    simp only [List.singleton_append, lead, List.length_singleton]
    rw [if_neg (by omega), if_pos (by omega), e7]
    simp only [Res.ok.injEq, Prod.mk.injEq]
    exact ⟨by omega, trivial⟩
  · -- two bytes
    have ea : (cp >>> 6) &&& 0x1F = cp / 64 % 32 := shr_and_mask cp 6 5
    rw [ea, e6]
    obtain ⟨f1, f2⟩ := two_byte_lead_facts (cp / 64 % 32) (Nat.mod_lt _ (by decide))
    obtain ⟨g1, _⟩ := continuation_facts (cp % 64) (Nat.mod_lt _ (by decide))
    simp only [List.cons_append, List.nil_append, List.length_cons, List.length_nil]
    rw [lead_two_byte off _ _ rest f1, f2, g1, shl6_or _ _ (by omega)]
    simp only [Res.ok.injEq, Prod.mk.injEq]
    exact ⟨by omega, trivial⟩
  · -- three bytes
    have ea : (cp >>> 12) &&& 0x0F = cp / 4096 % 16 := shr_and_mask cp 12 4
    have eb : (cp >>> 6) &&& 0x3F = cp / 64 % 64 := shr_and_mask cp 6 6
    rw [ea, eb, e6]
    obtain ⟨f1, f2, f3⟩ := three_byte_lead_facts (cp / 4096 % 16) (Nat.mod_lt _ (by decide))
    obtain ⟨g1, g2⟩ := continuation_facts (cp / 64 % 64) (Nat.mod_lt _ (by decide))
    obtain ⟨k1, _⟩ := continuation_facts (cp % 64) (Nat.mod_lt _ (by decide))
    simp only [List.cons_append, List.nil_append, List.length_cons, List.length_nil]
    rw [lead_three_byte off _ _ _ rest f1 (fun hc => by
        have := f3 hc.1
        have := g2 hc.2
        omega),
      f2, g1, k1, Nat.or_assoc, shl6_or _ (cp % 64) (by omega), shl12_or _ _ (by omega)]
    simp only [Res.ok.injEq, Prod.mk.injEq]
    exact ⟨by omega, trivial⟩
  · -- six bytes
    have eh : (cp >>> 16) &&& 0x0F = cp / 65536 % 16 := shr_and_mask cp 16 4
    have em : (cp >>> 10) &&& 0x3F = cp / 1024 % 64 := shr_and_mask cp 10 6
    have el : (cp >>> 6) &&& 0x0F = cp / 64 % 16 := shr_and_mask cp 6 4
    have e20 : cp &&& 0xFFFFF = cp % 1048576 := and_mask cp 20
    rw [eh, em, el, e6, e20]
    obtain ⟨f1, f2, _, _⟩ := six_byte_facts (cp / 65536 % 16) (Nat.mod_lt _ (by decide))
    obtain ⟨_, _, f3, f4⟩ := six_byte_facts (cp / 64 % 16) (Nat.mod_lt _ (by decide))
    obtain ⟨g1, _⟩ := continuation_facts (cp / 1024 % 64) (Nat.mod_lt _ (by decide))
    obtain ⟨k1, _⟩ := continuation_facts (cp % 64) (Nat.mod_lt _ (by decide))
    simp only [List.cons_append, List.nil_append, List.length_cons, List.length_nil]
    rw [lead_six_byte off _ _ _ _ rest f1 f3, f2, f4, g1, k1, Nat.or_assoc, Nat.or_assoc,
      Nat.or_assoc, shl6_or _ (cp % 64) (by omega), shl10_or _ _ (by omega),
      shl16_or _ _ (by omega)]
    simp only [Res.ok.injEq, Prod.mk.injEq]
    refine ⟨?_, trivial⟩
    congr 1
    omega

theorem scan_tierEncode : ∀ (s : List Nat) (off : Nat),
    (∀ cp ∈ s, ¬ (0xD800 ≤ cp ∧ cp ≤ 0xDBFF)) →
    scan off (tierEncode s) = .ok (s.map roundTripImage) := by
  intro s
  induction s with
  | nil => intro off _; simp [tierEncode, scan]
  | cons cp rest ih =>
    intro off hs
    have hcp := hs cp (List.mem_cons_self _ _)
    have hrest : ∀ c ∈ rest, ¬ (0xD800 ≤ c ∧ c ≤ 0xDBFF) :=
      fun c hc => hs c (List.mem_cons_of_mem _ hc)
    have hl := lead_tierForm off cp (tierEncode rest) hcp
    have hlen : 1 ≤ (tierForm cp).length := by
      rw [tierForm_length]
      split_ifs <;> omega
    rcases hxt : tierForm cp with _ | ⟨x, t⟩
    · rw [hxt] at hlen
      simp at hlen
    · rw [hxt] at hl
      rw [tierEncode, hxt, List.cons_append, scan]
      rw [List.cons_append] at hl
      rw [hl]
      simp only [List.length_cons, Nat.add_sub_cancel, List.drop_left, List.map_cons]
      rw [ih _ hrest]
      rfl

theorem roundTripImage_fixed_iff (cp : Nat) (h : cp > 0xFFFF) :
    roundTripImage cp = cp ↔ cp < 0x100000 ∧ cp.testBit 16 = true := by
  have e20 : cp &&& 0xFFFFF = cp % 1048576 := and_mask cp 20
  have himg : roundTripImage cp = 0x10000 ||| (cp % 1048576) := by
    rw [roundTripImage, if_neg (by omega), e20]
  rw [himg]
  constructor
  · intro heq
    have hlt : 0x10000 ||| (cp % 1048576) < 2 ^ 20 :=
      Nat.or_lt_two_pow (by decide) (Nat.mod_lt _ (by decide))
    refine ⟨by rw [heq] at hlt; exact hlt, ?_⟩
    rw [← heq, Nat.testBit_or, show (0x10000 : Nat) = 2 ^ 16 from rfl, Nat.testBit_two_pow_self]
    rfl
  · rintro ⟨hlt, hbit⟩
    rw [Nat.mod_eq_of_lt hlt]
    apply Nat.eq_of_testBit_eq
    intro i
    rw [Nat.testBit_or, show (0x10000 : Nat) = 2 ^ 16 from rfl, Nat.testBit_two_pow]
    by_cases hi : 16 = i
    · subst hi
      simp [hbit]
    · simp [hi]

/-! ## The claims -/

/-- C1 (defect of the code): the round trip fails at the scalar value U+20000.
The encoder writes the six bytes `ED A2 80 ED B0 80` for it, and the decoder
reads these six bytes back as the single codepoint U+30000. -/
theorem C1_round_trip_diverges_at_U20000 :
    encode_modified_utf8 [0x20000] = .ok [0xED, 0xA2, 0x80, 0xED, 0xB0, 0x80] ∧
    decode_modified_utf8 [0xED, 0xA2, 0x80, 0xED, 0xB0, 0x80] = .ok [0x30000] ∧
    (encode_modified_utf8 [0x20000]).bind decode_modified_utf8 ≠ .ok [0x20000] := by
  decide

/-- C2: size agreement. For every codepoint sequence `s` the encoder's loop,
started on a zeroed buffer of `_encoded_size s` bytes, ends without leaving the
buffer, with `byte_count` equal to `_encoded_size s` and to the length of the
buffer, and the bytes returned are the whole buffer; so the length of
`encode s` is `_encoded_size s`. For `['A', U+10000]` both are 7. -/
theorem C2_size_agreement :
    (∀ s : List Nat, ∃ st out,
      encodeLoop s ⟨List.replicate (_encoded_size s) 0, 0⟩ = .ok st ∧
      st.byte_count = _encoded_size s ∧ st.byte_out.length = _encoded_size s ∧
      encode_modified_utf8 s = .ok out ∧ out = st.byte_out ∧
      out.length = _encoded_size s) ∧
    _encoded_size [0x41, 0x10000] = 7 ∧
    (encode_modified_utf8 [0x41, 0x10000]).map List.length = .ok 7 := by
  refine ⟨?_, by decide, by decide⟩
  intro s
  obtain ⟨st, e, l, c, t⟩ := encodeLoop_init s
  refine ⟨st, st.byte_out, e, c, l, ?_, rfl, l⟩
  rw [encode_modified_utf8_eq, t]

/-- C3 (defect of the code): the canonical round trip fails at the correctly
paired six-byte unit `ED A0 80 ED B0 80`. The decoder reads it as U+10000, and
the encoder writes U+10000 as `ED A1 80 ED B0 80`. -/
theorem C3_canonical_round_trip_diverges :
    decode_modified_utf8 [0xED, 0xA0, 0x80, 0xED, 0xB0, 0x80] = .ok [0x10000] ∧
    encode_modified_utf8 [0x10000] = .ok [0xED, 0xA1, 0x80, 0xED, 0xB0, 0x80] ∧
    (decode_modified_utf8 [0xED, 0xA0, 0x80, 0xED, 0xB0, 0x80]).bind encode_modified_utf8 ≠
      .ok [0xED, 0xA0, 0x80, 0xED, 0xB0, 0x80] := by
  decide

/-- C4: the encoder follows the tier table. For every codepoint sequence `s`,
`encode s` succeeds and is the in-order concatenation of the tier-table forms
of its codepoints; in particular `encode [0x0800] = [E0, A0, 80]`. -/
theorem C4_encode_follows_tier_table :
    (∀ s : List Nat, encode_modified_utf8 s = .ok (tierEncode s)) ∧
    encode_modified_utf8 [0x0800] = .ok [0xE0, 0xA0, 0x80] :=
  ⟨encode_modified_utf8_eq, by decide⟩

/-- C5: the encoder never writes a zero byte. For every codepoint sequence
the result of `encode` contains no byte `0x00`, and a codepoint 0 standing
between `s` and `t` contributes exactly the two bytes `C0 80` between the
encodings of `s` and `t`. -/
theorem C5_encode_no_zero_byte :
    (∀ s : List Nat, ∃ out, encode_modified_utf8 s = .ok out ∧ 0 ∉ out) ∧
    (∀ s t : List Nat, ∃ a b, encode_modified_utf8 s = .ok a ∧ encode_modified_utf8 t = .ok b ∧
      encode_modified_utf8 (s ++ 0 :: t) = .ok (a ++ [0xC0, 0x80] ++ b)) := by
  constructor
  · intro s
    exact ⟨tierEncode s, encode_modified_utf8_eq s, fun h => tierEncode_ne_zero s 0 h rfl⟩
  · intro s t
    refine ⟨tierEncode s, tierEncode t, encode_modified_utf8_eq s, encode_modified_utf8_eq t, ?_⟩
    rw [encode_modified_utf8_eq, tierEncode_append]
    simp [tierEncode, tierForm]

/-- C6 (defect of the code): the boundary value U+10FFFF does not survive the
round trip. Each of the eight boundary values is encoded in its tier-table
form, of length 2, 1, 2, 2, 3, 3, 6 and 6, and `decode [C0, 80] = [0]`; the
first seven decode back to themselves, but the six bytes written for U+10FFFF,
`ED A0 BF ED BF BF`, decode to U+1FFFF. -/
theorem C6_boundary_U10FFFF_diverges :
    ([0x00, 0x7F, 0x80, 0x7FF, 0x800, 0xFFFF, 0x10000, 0x10FFFF].map
        (fun cp => (encode_modified_utf8 [cp]).map List.length)
      = [.ok 2, .ok 1, .ok 2, .ok 2, .ok 3, .ok 3, .ok 6, .ok 6]) ∧
    (∀ cp ∈ [0x00, 0x7F, 0x80, 0x7FF, 0x800, 0xFFFF, 0x10000, 0x10FFFF],
      encode_modified_utf8 [cp] = .ok (tierForm cp)) ∧
    (∀ cp ∈ [0x00, 0x7F, 0x80, 0x7FF, 0x800, 0xFFFF, 0x10000],
      (encode_modified_utf8 [cp]).bind decode_modified_utf8 = .ok [cp]) ∧
    decode_modified_utf8 [0xC0, 0x80] = .ok [0] ∧
    encode_modified_utf8 [0x10FFFF] = .ok [0xED, 0xA0, 0xBF, 0xED, 0xBF, 0xBF] ∧
    decode_modified_utf8 [0xED, 0xA0, 0xBF, 0xED, 0xBF, 0xBF] = .ok [0x1FFFF] := by
  decide

/-- C7: an embedded NUL at a lead position. If `decode p` succeeds then, for
every `r`, `decode (p ++ [0x00] ++ r)` fails with `EmbeddedNull` and
`offset_start = length p`; in particular `decode [0x00]` fails with
`EmbeddedNull` at offset 0. -/
theorem C7_embedded_null_at_lead (p r u : List Nat) (h : decode_modified_utf8 p = .ok u) :
    decode_modified_utf8 (p ++ [0x00] ++ r) =
      .error (.decodeError .EmbeddedNull p.length (p.length + 1)) ∧
    decode_modified_utf8 [0x00] = .error (.decodeError .EmbeddedNull 0 1) := by
  refine ⟨?_, by decide⟩
  rw [List.append_assoc, List.singleton_append]
  exact decode_null_after p r u h

/-- Witness of C7 at `p = [41, C3, A9]` and `r = [42]`. -/
theorem C7_embedded_null_at_lead_witness :
    decode_modified_utf8 [0x41, 0xC3, 0xA9] = .ok [0x41, 0xE9] ∧
    decode_modified_utf8 ([0x41, 0xC3, 0xA9] ++ [0x00] ++ [0x42]) =
      .error (.decodeError .EmbeddedNull 3 4) :=
  ⟨by decide, (C7_embedded_null_at_lead [0x41, 0xC3, 0xA9] [0x42] [0x41, 0xE9] (by decide)).1⟩

/-- C8, the claim as stated fails: the input `[C0, 00]` contains a byte `0x00`,
yet `decode` succeeds on it, and the codepoint it returns is NUL. -/
theorem C8_zero_byte_counterexample :
    0 ∈ [0xC0, 0x00] ∧ decode_modified_utf8 [0xC0, 0x00] = .ok [0] := by
  decide

/-- C8 as amended: a `0x00` byte at a lead position is always an error.
Whenever the scan of `b` reaches an index at the start of a loop iteration and
the byte of `b` at that index is `0x00`, `decode b` returns no codepoint
sequence: it fails with `EmbeddedNull` at that index. In particular this is so
for the index `i` of a `0x00` byte when the bytes before `i` decode
successfully on their own. -/
theorem C8_zero_lead_byte_is_error (b : List Nat) :
    (∀ n st, decodeSteps b n (decodeInit b) = .ok st → b[st.ix]? = some 0 →
      decode_modified_utf8 b = .error (.decodeError .EmbeddedNull st.ix (st.ix + 1)) ∧
      ∀ v, decode_modified_utf8 b ≠ .ok v) ∧
    (∀ i u, b[i]? = some 0 → decode_modified_utf8 (b.take i) = .ok u →
      decode_modified_utf8 b = .error (.decodeError .EmbeddedNull i (i + 1)) ∧
      ∀ v, decode_modified_utf8 b ≠ .ok v) := by
  constructor
  · intro n st hs h0
    have hlt : st.ix < b.length := (List.getElem?_eq_some_iff.mp h0).1
    have hd := decode_of_steps_error b n st _ hs hlt (decodeIter_null b st h0)
    refine ⟨hd, ?_⟩
    intro v hv
    rw [hd] at hv
    cases hv
  · intro i u hi hp
    obtain ⟨hlt, hb⟩ := List.getElem?_eq_some_iff.mp hi
    have hsplit : b = b.take i ++ 0 :: b.drop (i + 1) := by
      rw [← hb, ← List.drop_eq_getElem_cons hlt, List.take_append_drop]
    have hlen : (b.take i).length = i := by
      rw [List.length_take]; omega
    have hd := decode_null_after (b.take i) (b.drop (i + 1)) u hp
    rw [← hsplit, hlen] at hd
    refine ⟨hd, ?_⟩
    intro v hv
    rw [hd] at hv
    cases hv

/-- Witness of the amended C8. In `[ED, A0, 80, 00, 41, 41]` the scan reaches
index 3 after one iteration (the triplet is read as U+D800) and the byte there
is `0x00`, although the three bytes before it do not decode on their own; in
`[41, 00, 42]` the byte before index 1 decodes on its own. -/
theorem C8_zero_lead_byte_is_error_witness :
    decodeSteps [0xED, 0xA0, 0x80, 0x00, 0x41, 0x41] 1
        (decodeInit [0xED, 0xA0, 0x80, 0x00, 0x41, 0x41]) =
      .ok ⟨3, [0xD800, 0, 0, 0, 0, 0], 1⟩ ∧
    decode_modified_utf8 [0xED, 0xA0, 0x80, 0x00, 0x41, 0x41] =
      .error (.decodeError .EmbeddedNull 3 4) ∧
    decode_modified_utf8 [0x41, 0x00, 0x42] = .error (.decodeError .EmbeddedNull 1 2) :=
  ⟨by decide,
   ((C8_zero_lead_byte_is_error [0xED, 0xA0, 0x80, 0x00, 0x41, 0x41]).1 1
      ⟨3, [0xD800, 0, 0, 0, 0, 0], 1⟩ (by decide) (by decide)).1,
   ((C8_zero_lead_byte_is_error [0x41, 0x00, 0x42]).2 1 [0x41] (by decide) (by decide)).1⟩

/-- C9, the claim as stated fails: in `[C3, 41]` the lead byte `C3` of form
`110xxxxx` is followed by `41`, which is not of the form `10xxxxxx`, yet
`decode` succeeds and returns the codepoint U+00C1. -/
theorem C9_malformed_continuation_counterexample :
    0xC3 &&& 0xE0 = 0xC0 ∧ 0x41 &&& 0xC0 ≠ 0x80 ∧
    decode_modified_utf8 [0xC3, 0x41] = .ok [0xC1] := by
  decide

/-- C9 as amended: the bytes that follow a lead byte within its sequence are
not tested for the form `10xxxxxx`; whatever they are, only their low six bits
are used. After a lead `c` of form `110xxxxx` any byte `d` completes the
two-byte codepoint `((c & 0x1F) << 6) | (d & 0x3F)`; after a lead `c` of form
`1110xxxx` any bytes `d`, `e`, unless `c = ED` and `d` is in `A0-AF`, complete
the three-byte codepoint `((c & 0x0F) << 12) | ((d & 0x3F) << 6) | (e & 0x3F)`.
In both cases decoding goes on with the rest `r` of the input. -/
theorem C9_continuation_bytes_unchecked (c d e : Nat) (r : List Nat) :
    (c &&& 0xE0 = 0xC0 →
      decode_modified_utf8 ([c, d] ++ r) =
        Res.after [((c &&& 0x1F) <<< 6) ||| (d &&& 0x3F)] 2 (decode_modified_utf8 r)) ∧
    (c &&& 0xF0 = 0xE0 → ¬ (c = 0xED ∧ d &&& 0xF0 = 0xA0) →
      decode_modified_utf8 ([c, d, e] ++ r) =
        Res.after [((c &&& 0x0F) <<< 12) ||| ((d &&& 0x3F) <<< 6) ||| (e &&& 0x3F)] 3
          (decode_modified_utf8 r)) := by
  constructor
  · intro h
    exact decode_cons_of_lead c (d :: r) _ 1 (lead_two_byte 0 c d r h)
  · intro h hn
    exact decode_cons_of_lead c (d :: e :: r) _ 2 (lead_three_byte 0 c d e r h hn)

/-- Witness of the amended C9: `[C3, 41, 42]` and `[E2, 41, 42, 00]`. -/
theorem C9_continuation_bytes_unchecked_witness :
    decode_modified_utf8 ([0xC3, 0x41] ++ [0x42]) = .ok [0xC1, 0x42] ∧
    decode_modified_utf8 ([0xE2, 0x41, 0x42] ++ [0x00]) =
      .error (.decodeError .EmbeddedNull 3 4) :=
  ⟨((C9_continuation_bytes_unchecked 0xC3 0x41 0 [0x42]).1 (by decide)).trans (by decide),
   ((C9_continuation_bytes_unchecked 0xE2 0x41 0x42 [0x00]).2 (by decide) (by decide)).trans
     (by decide)⟩

/-- C10: truncated two- and three-byte sequences. If `decode p` succeeds then
(i) for every byte `c` with `(c & 0xE0) = 0xC0`, `decode (p ++ [c])` fails with
`Truncated2Byte` at `offset_start = length p`, and (ii) for every byte `c` with
`(c & 0xF0) = 0xE0` and every `t` of length 0 or 1, `decode (p ++ [c] ++ t)`
fails with `Truncated3Byte` at `offset_start = length p`. In particular
`decode [C0]` fails with `Truncated2Byte` and `decode [E0]` with
`Truncated3Byte`. -/
theorem C10_truncated_sequences (p u : List Nat) (h : decode_modified_utf8 p = .ok u) :
    (∀ c, c &&& 0xE0 = 0xC0 →
      decode_modified_utf8 (p ++ [c]) =
        .error (.decodeError .Truncated2Byte p.length (p.length + 1))) ∧
    (∀ c t, c &&& 0xF0 = 0xE0 → t.length ≤ 1 →
      decode_modified_utf8 (p ++ [c] ++ t) =
        .error (.decodeError .Truncated3Byte p.length (p.length + 1))) ∧
    decode_modified_utf8 [0xC0] = .error (.decodeError .Truncated2Byte 0 1) ∧
    decode_modified_utf8 [0xE0] = .error (.decodeError .Truncated3Byte 0 1) := by
  refine ⟨?_, ?_, by decide, by decide⟩
  · intro c hc
    rw [decode_append p _ u h,
      decode_of_lead_error [c] _ (lead_truncated2 0 c hc) (by simp)]
    simp [Res.after, Fault.shift, Nat.add_comm]
  · intro c t hc ht
    rw [List.append_assoc, List.singleton_append, decode_append p _ u h,
      decode_of_lead_error (c :: t) _ (lead_truncated3 0 c t hc ht) (by simp)]
    simp [Res.after, Fault.shift, Nat.add_comm]

/-- Witness of C10 at `p = [41]`, with the lead bytes `C3` and `E2` and the
tail `[82]`. -/
theorem C10_truncated_sequences_witness :
    decode_modified_utf8 [0x41] = .ok [0x41] ∧
    decode_modified_utf8 ([0x41] ++ [0xC3]) = .error (.decodeError .Truncated2Byte 1 2) ∧
    decode_modified_utf8 ([0x41] ++ [0xE2] ++ [0x82]) =
      .error (.decodeError .Truncated3Byte 1 2) :=
  ⟨by decide,
   (C10_truncated_sequences [0x41] [0x41] (by decide)).1 0xC3 (by decide),
   (C10_truncated_sequences [0x41] [0x41] (by decide)).2.1 0xE2 [0x82] (by decide) (by decide)⟩

/-- C11, the claim as stated fails: `decode [ED, A0, 80, 00, 41, 41]` fails
with `EmbeddedNull` at `offset_start = 3`, the triplet before it having been
read as a three-byte codepoint, but decoding the prefix `[ED, A0, 80]` of
three bytes does not succeed: it fails with `Truncated6Byte`. -/
theorem C11_error_location_counterexample :
    decode_modified_utf8 [0xED, 0xA0, 0x80, 0x00, 0x41, 0x41] =
      .error (.decodeError .EmbeddedNull 3 4) ∧
    decode_modified_utf8 ([0xED, 0xA0, 0x80, 0x00, 0x41, 0x41].take 3) =
      .error (.decodeError .Truncated6Byte 0 1) := by
  decide

/-- C11 as amended: error location. Whenever `decode b` fails with the range
`[offset_start, offset_end)` then `offset_end = offset_start + 1`,
`offset_start < length b`, the scan of `b` reaches `offset_start` at the start
of a loop iteration and that iteration returns the error (`offset_start` is the
index of the byte that began the faulty sequence), and the byte
`b[offset_start]` matches the reason. Decoding the prefix `b[0..offset_start)`
succeeds, or else fails with `Truncated6Byte` at an offset `t` with
`t + 3 ≤ offset_start ≤ t + 5`, the place of a triplet `ED [A0-AF] xx` whose
three lookahead bytes the prefix no longer holds. -/
theorem C11_error_location (b : List Nat) (r : Reason) (s e : Nat)
    (h : decode_modified_utf8 b = .error (.decodeError r s e)) :
    e = s + 1 ∧ s < b.length ∧
    (∃ n st, decodeSteps b n (decodeInit b) = .ok st ∧ st.ix = s ∧
      decodeIter b st = .error (.decodeError r s e)) ∧
    (∃ x, b[s]? = some x ∧ leadMatches r x = true) ∧
    ((∃ u, decode_modified_utf8 (b.take s) = .ok u) ∨
      ∃ t, decode_modified_utf8 (b.take s) = .error (.decodeError .Truncated6Byte t (t + 1)) ∧
        t + 3 ≤ s ∧ s ≤ t + 5) := by
  obtain ⟨n, st, hst, hlt, hit⟩ := decode_error_reach b _ h
  obtain ⟨i1, i2, i3⟩ := decodeSteps_inv b n _ st (decodeInit_inv b).1 (decodeInit_inv b).2.1
    (decodeInit_inv b).2.2 hst
  obtain ⟨r1, hf, x, hx, hm⟩ := decodeIter_fault b st _ i1 hlt i3 hit
  simp only [Fault.decodeError.injEq] at hf
  obtain ⟨hr, hs, he⟩ := hf
  subst hr hs he
  refine ⟨rfl, hlt, ⟨n, st, hst, rfl, hit⟩, ⟨x, hx, hm⟩, ?_⟩
  rw [decode_modified_utf8_eq_scan] at h ⊢
  have hp := (scan_error_location b.length b 0 _ _ _ (Nat.le_refl _) h).2.2
  rw [Nat.sub_zero] at hp
  rcases hp with ⟨u, hu⟩ | ⟨t, ht, h1, h2⟩
  · exact Or.inl ⟨u, hu⟩
  · exact Or.inr ⟨t, ht, h1, h2⟩

/-- Witness of the amended C11 at `b = [41, C3, A9, E2, 82]`, where the error
is `Truncated3Byte` at offset 3 and the prefix `[41, C3, A9]` decodes. -/
theorem C11_error_location_witness :
    decode_modified_utf8 [0x41, 0xC3, 0xA9, 0xE2, 0x82] =
      .error (.decodeError .Truncated3Byte 3 4) ∧
    (4 = 3 + 1 ∧ 3 < [0x41, 0xC3, 0xA9, 0xE2, 0x82].length) ∧
    (∃ x, [0x41, 0xC3, 0xA9, 0xE2, 0x82][3]? = some x ∧
      leadMatches .Truncated3Byte x = true) :=
  ⟨by decide,
   ⟨(C11_error_location [0x41, 0xC3, 0xA9, 0xE2, 0x82] .Truncated3Byte 3 4 (by decide)).1,
    (C11_error_location [0x41, 0xC3, 0xA9, 0xE2, 0x82] .Truncated3Byte 3 4 (by decide)).2.1⟩,
   (C11_error_location [0x41, 0xC3, 0xA9, 0xE2, 0x82] .Truncated3Byte 3 4 (by decide)).2.2.2.1⟩

/-- C12: six-byte decoding. For `b2` in `A0-AF`, `b5` in `B0-BF`, any `b3`,
`b6` and any `r`, decoding `[ED, b2, b3, ED, b5, b6] ++ r` consumes these six
bytes as the single codepoint
`0x10000 | ((b2&0x0F)<<16) | ((b3&0x3F)<<10) | ((b5&0x0F)<<6) | (b6&0x3F)` and
goes on with `r`: the result is that codepoint followed by `decode r`, or the
failure of `decode r` with its offsets moved by 6. -/
theorem C12_six_byte_decoding (b2 b3 b5 b6 : Nat) (r : List Nat)
    (h2 : 0xA0 ≤ b2 ∧ b2 ≤ 0xAF) (h5 : 0xB0 ≤ b5 ∧ b5 ≤ 0xBF) :
    decode_modified_utf8 ([0xED, b2, b3, 0xED, b5, b6] ++ r) =
      Res.after [0x10000 ||| ((b2 &&& 0x0F) <<< 16) ||| ((b3 &&& 0x3F) <<< 10)
        ||| ((b5 &&& 0x0F) <<< 6) ||| (b6 &&& 0x3F)] 6 (decode_modified_utf8 r) :=
  decode_cons_of_lead 0xED (b2 :: b3 :: 0xED :: b5 :: b6 :: r) _ 5
    (lead_six_byte 0 b2 b3 b5 b6 r ((and_F0_eq_A0_iff b2 (by omega)).mpr h2)
      ((and_F0_eq_B0_iff b5 (by omega)).mpr h5))

/-- Witness of C12: `ED A1 80 ED B0 81` followed by `41` and, for the failure
case, followed by `00`. -/
theorem C12_six_byte_decoding_witness :
    decode_modified_utf8 ([0xED, 0xA1, 0x80, 0xED, 0xB0, 0x81] ++ [0x41]) = .ok [0x10001, 0x41] ∧
    decode_modified_utf8 ([0xED, 0xA1, 0x80, 0xED, 0xB0, 0x81] ++ [0x00]) =
      .error (.decodeError .EmbeddedNull 6 7) :=
  ⟨(C12_six_byte_decoding 0xA1 0x80 0xB0 0x81 [0x41] (by decide) (by decide)).trans (by decide),
   (C12_six_byte_decoding 0xA1 0x80 0xB0 0x81 [0x00] (by decide) (by decide)).trans (by decide)⟩

/-- C13, the claim as stated fails: `[ED, A0, 80]` does not begin with the
pattern `ED [A0-AF] xx ED [B0-BF] xx` (nothing follows the triplet), yet
`decode` does not yield the codepoint `0xD000 | ((A0&0x3F)<<6) | (80&0x3F)`,
which is U+D800: it fails with `Truncated6Byte`. -/
theorem C13_ED_triplet_counterexample :
    sixBytePattern ([0xED, 0xA0, 0x80] ++ []) = false ∧
    0xD000 ||| ((0xA0 &&& 0x3F) <<< 6) ||| (0x80 &&& 0x3F) = 0xD800 ∧
    decode_modified_utf8 ([0xED, 0xA0, 0x80] ++ []) =
      .error (.decodeError .Truncated6Byte 0 1) := by
  decide

/-- C13 as amended: an `ED`-led triplet outside the surrogate-pair pattern is
decoded as an ordinary three-byte codepoint provided its second byte is not in
`A0-AF` or at least three bytes follow it. For bytes `b2`, `b3` and a byte
sequence `r` such that `[ED, b2, b3] ++ r` does not begin with the pattern
`ED [A0-AF] xx ED [B0-BF] xx`, and such that `b2` is outside `A0-AF` or `r`
has at least three bytes, `decode ([ED, b2, b3] ++ r)` is the codepoint
`0xD000 | ((b2&0x3F)<<6) | (b3&0x3F)` followed by the decoding of `r`. -/
theorem C13_ED_triplet_three_byte (b2 b3 : Nat) (r : List Nat) (hb2 : b2 < 256)
    (hbytes : ∀ x ∈ r, x < 256) (hpat : sixBytePattern ([0xED, b2, b3] ++ r) = false)
    (hlen : ¬ (0xA0 ≤ b2 ∧ b2 ≤ 0xAF) ∨ 3 ≤ r.length) :
    decode_modified_utf8 ([0xED, b2, b3] ++ r) =
      Res.after [0xD000 ||| ((b2 &&& 0x3F) <<< 6) ||| (b3 &&& 0x3F)] 3
        (decode_modified_utf8 r) := by
  apply decode_cons_of_lead 0xED (b2 :: b3 :: r) _ 2
  by_cases h2 : 0xA0 ≤ b2 ∧ b2 ≤ 0xAF
  · have hr : 3 ≤ r.length := by
      rcases hlen with h | h
      · exact absurd h2 h
      · exact h
    rcases r with _ | ⟨b4, _ | ⟨b5, _ | ⟨b6, r⟩⟩⟩
    · simp at hr
    · simp at hr
    · simp at hr
    · apply lead_near_match
      rintro ⟨h4, h5⟩
      have hb5 : b5 < 256 := hbytes b5 (by simp)
      have h5r := (and_F0_eq_B0_iff b5 hb5).mp h5
      simp [sixBytePattern, h2.1, h2.2, h4, h5r.1, h5r.2] at hpat
  · exact lead_ED_plain 0 b2 b3 r (fun h => h2 ((and_F0_eq_A0_iff b2 hb2).mp h))

/-- Witness of the amended C13: `ED 9F BF` followed by `41`, and `ED A0 80`
followed by `41 42 43`. -/
theorem C13_ED_triplet_three_byte_witness :
    decode_modified_utf8 ([0xED, 0x9F, 0xBF] ++ [0x41]) = .ok [0xD7FF, 0x41] ∧
    decode_modified_utf8 ([0xED, 0xA0, 0x80] ++ [0x41, 0x42, 0x43]) =
      .ok [0xD800, 0x41, 0x42, 0x43] :=
  ⟨(C13_ED_triplet_three_byte 0x9F 0xBF [0x41] (by decide) (by decide) (by decide)
      (by decide)).trans (by decide),
   (C13_ED_triplet_three_byte 0xA0 0x80 [0x41, 0x42, 0x43] (by decide) (by decide) (by decide)
      (by decide)).trans (by decide)⟩

/-- C14: output length bound. If `decode b` succeeds, the sequence it returns
is no longer than `b`. At every step of the scan the number `cp_count` of
codepoints written is at most the number `ix` of bytes consumed, `ix` is at
most `length b`, and the codepoint buffer has `length b` entries; so whenever
another iteration runs (`ix < length b`) the entry `cp_out[cp_count]` it writes
lies inside the buffer, and `decode` never ends in an out-of-bounds access. -/
theorem C14_output_length_bound (b : List Nat) :
    (∀ u, decode_modified_utf8 b = .ok u → u.length ≤ b.length) ∧
    (∀ n st, decodeSteps b n (decodeInit b) = .ok st →
      st.cp_count ≤ st.ix ∧ st.ix ≤ b.length ∧ st.cp_out.length = b.length ∧
        (st.ix < b.length → st.cp_count < st.cp_out.length)) ∧
    decode_modified_utf8 b ≠ .error .outOfBounds := by
  have hinv : ∀ n st, decodeSteps b n (decodeInit b) = .ok st →
      st.cp_count ≤ st.ix ∧ st.ix ≤ b.length ∧ st.cp_out.length = b.length :=
    fun n st hst => decodeSteps_inv b n _ st (decodeInit_inv b).1 (decodeInit_inv b).2.1
      (decodeInit_inv b).2.2 hst
  refine ⟨?_, ?_, ?_⟩
  · intro u hu
    obtain ⟨st, hst, _, rfl⟩ := decode_ok_final b u hu
    obtain ⟨_, _, i3⟩ := hinv _ st hst
    rw [List.length_take, i3]
    exact Nat.min_le_right _ _
  · intro n st hst
    obtain ⟨i1, i2, i3⟩ := hinv n st hst
    exact ⟨i1, i2, i3, fun hlt => by omega⟩
  · intro hb
    obtain ⟨r, s, hf⟩ := decode_fault_shape b _ hb
    cases hf

/-- Witness of C14 at `b = [41, C3, A9, ED, A1, 80, ED, B0, 80]`, which
decodes to three codepoints, and at the state after two iterations, where
`cp_count = 2` and `ix = 3`. -/
theorem C14_output_length_bound_witness :
    decode_modified_utf8 [0x41, 0xC3, 0xA9, 0xED, 0xA1, 0x80, 0xED, 0xB0, 0x80] =
      .ok [0x41, 0xE9, 0x10000] ∧
    [0x41, 0xE9, 0x10000].length ≤ [0x41, 0xC3, 0xA9, 0xED, 0xA1, 0x80, 0xED, 0xB0, 0x80].length ∧
    decodeSteps [0x41, 0xC3, 0xA9, 0xED, 0xA1, 0x80, 0xED, 0xB0, 0x80] 2
        (decodeInit [0x41, 0xC3, 0xA9, 0xED, 0xA1, 0x80, 0xED, 0xB0, 0x80]) =
      .ok ⟨3, [0x41, 0xE9, 0, 0, 0, 0, 0, 0, 0], 2⟩ ∧
    (2 ≤ 3 ∧ 3 ≤ [0x41, 0xC3, 0xA9, 0xED, 0xA1, 0x80, 0xED, 0xB0, 0x80].length) :=
  ⟨by decide,
   (C14_output_length_bound [0x41, 0xC3, 0xA9, 0xED, 0xA1, 0x80, 0xED, 0xB0, 0x80]).1
      [0x41, 0xE9, 0x10000] (by decide),
   by decide,
   ((C14_output_length_bound [0x41, 0xC3, 0xA9, 0xED, 0xA1, 0x80, 0xED, 0xB0, 0x80]).2.1 2
      ⟨3, [0x41, 0xE9, 0, 0, 0, 0, 0, 0, 0], 2⟩ (by decide)).1,
   ((C14_output_length_bound [0x41, 0xC3, 0xA9, 0xED, 0xA1, 0x80, 0xED, 0xB0, 0x80]).2.1 2
      ⟨3, [0x41, 0xE9, 0, 0, 0, 0, 0, 0, 0], 2⟩ (by decide)).2.1⟩

/-- C15: near-match fallback without speculative consumption. For `b2` in
`A0-AF`, any `b3`, and a byte sequence `r` of length at least 3 whose first
byte is not `ED` or whose second byte is not in `B0-BF`,
`decode ([ED, b2, b3] ++ r)` is not an error at the triplet: it is the
three-byte codepoint `0xD000 | ((b2&0x3F)<<6) | (b3&0x3F)` followed by
`decode r`, where `r` is scanned from its own first byte (a failure of
`decode r` is reported with its offsets moved by 3). -/
theorem C15_near_match_fallback (b2 b3 : Nat) (r : List Nat)
    (_h2 : 0xA0 ≤ b2 ∧ b2 ≤ 0xAF) (hr : 3 ≤ r.length) (hbytes : ∀ x ∈ r, x < 256)
    (hn : r[0]? ≠ some 0xED ∨ ∀ b5, r[1]? = some b5 → ¬ (0xB0 ≤ b5 ∧ b5 ≤ 0xBF)) :
    decode_modified_utf8 ([0xED, b2, b3] ++ r) =
      Res.after [0xD000 ||| ((b2 &&& 0x3F) <<< 6) ||| (b3 &&& 0x3F)] 3
        (decode_modified_utf8 r) :=
  decode_cons_of_lead 0xED (b2 :: b3 :: r) _ 2
    (lead_near_match_of_bytes 0 b2 b3 r hr hbytes hn)

/-- Witness of C15: `ED A0 80` followed by `41 B0 80` (first byte not `ED`),
followed by `ED 41 80` (second byte not in `B0-BF`), and followed by
`41 42 00`, where the failure of the rest at its offset 2 is reported at 5. -/
theorem C15_near_match_fallback_witness :
    decode_modified_utf8 ([0xED, 0xA0, 0x80] ++ [0x41, 0xB0, 0x80]) =
      .ok [0xD800, 0x41, 0xB0, 0x80] ∧
    decode_modified_utf8 ([0xED, 0xA0, 0x80] ++ [0xED, 0x41, 0x80]) = .ok [0xD800, 0xD040] ∧
    decode_modified_utf8 ([0xED, 0xA0, 0x80] ++ [0x41, 0x42, 0x00]) =
      .error (.decodeError .EmbeddedNull 5 6) :=
  ⟨(C15_near_match_fallback 0xA0 0x80 [0x41, 0xB0, 0x80] (by decide) (by decide) (by decide)
      (by decide)).trans (by decide),
   (C15_near_match_fallback 0xA0 0x80 [0xED, 0x41, 0x80] (by decide) (by decide) (by decide)
      (Or.inr (by decide))).trans (by decide),
   (C15_near_match_fallback 0xA0 0x80 [0x41, 0x42, 0x00] (by decide) (by decide) (by decide)
      (by decide)).trans (by decide)⟩

/-- C16: truncated six-byte lookahead. If `decode p` succeeds then, for `b2`
in `A0-AF`, any `b3` and any `r` of length 0, 1 or 2,
`decode (p ++ [ED, b2, b3] ++ r)` fails with `Truncated6Byte` at
`offset_start = length p`. -/
theorem C16_truncated_six_byte (p u : List Nat) (b2 b3 : Nat) (r : List Nat)
    (h : decode_modified_utf8 p = .ok u) (h2 : 0xA0 ≤ b2 ∧ b2 ≤ 0xAF) (hr : r.length ≤ 2) :
    decode_modified_utf8 (p ++ [0xED, b2, b3] ++ r) =
      .error (.decodeError .Truncated6Byte p.length (p.length + 1)) := by
  have hl := lead_truncated6 0 b2 b3 r ((and_F0_eq_A0_iff b2 (by omega)).mpr h2) hr
  rw [List.append_assoc, decode_append p _ u h]
  rw [show [0xED, b2, b3] ++ r = 0xED :: b2 :: b3 :: r from rfl,
    decode_of_lead_error _ _ hl (by simp)]
  simp [Res.after, Fault.shift, Nat.add_comm]

/-- Witness of C16 at `p = [41]`, the triplet `ED AF BF` and `r = [ED, B0]`. -/
theorem C16_truncated_six_byte_witness :
    decode_modified_utf8 ([0x41] ++ [0xED, 0xAF, 0xBF] ++ [0xED, 0xB0]) =
      .error (.decodeError .Truncated6Byte 1 2) :=
  C16_truncated_six_byte [0x41] [0x41] 0xAF 0xBF [0xED, 0xB0] (by decide) (by decide) (by decide)

/-- C17: pass-through of unclassified bytes. For every byte `v` in `80-BF` or
in `F0-FF` and every `r`, `decode ([v] ++ r)` does not fail at that byte: it
is the codepoint `v`, for which exactly one byte is consumed, followed by
`decode r`. -/
theorem C17_unclassified_pass_through (v : Nat) (r : List Nat)
    (hv : (0x80 ≤ v ∧ v ≤ 0xBF) ∨ (0xF0 ≤ v ∧ v ≤ 0xFF)) :
    decode_modified_utf8 ([v] ++ r) = Res.after [v] 1 (decode_modified_utf8 r) ∧
    ∀ rs e, decode_modified_utf8 ([v] ++ r) ≠ .error (.decodeError rs 0 e) := by
  have h1 : decode_modified_utf8 ([v] ++ r) = Res.after [v] 1 (decode_modified_utf8 r) :=
    decode_cons_of_lead v r v 0 (lead_passthrough 0 v r hv)
  refine ⟨h1, ?_⟩
  intro rs e
  rw [h1]
  cases hd : decode_modified_utf8 r with
  | ok w => simp [Res.after]
  | error f => cases f <;> simp [Res.after, Fault.shift]

/-- Witness of C17: the stray continuation byte `80` before `41`, and the
reserved lead byte `F8` before `00`. -/
theorem C17_unclassified_pass_through_witness :
    decode_modified_utf8 ([0x80] ++ [0x41]) = .ok [0x80, 0x41] ∧
    decode_modified_utf8 ([0xF8] ++ [0x00]) = .error (.decodeError .EmbeddedNull 1 2) :=
  ⟨((C17_unclassified_pass_through 0x80 [0x41] (by decide)).1).trans (by decide),
   ((C17_unclassified_pass_through 0xF8 [0x00] (by decide)).1).trans (by decide)⟩

/-- C18: decoding is compositional over a prefix that decodes. If `decode p`
succeeds with `u` then `decode (p ++ q)` succeeds with `u ++ v` whenever
`decode q` succeeds with `v`, and fails with the same reason and with
`offset_start = length p + k` whenever `decode q` fails at `offset_start = k`
(the end of the range moves by `length p` as well). -/
theorem C18_decode_compositional (p q u : List Nat) (h : decode_modified_utf8 p = .ok u) :
    (∀ v, decode_modified_utf8 q = .ok v → decode_modified_utf8 (p ++ q) = .ok (u ++ v)) ∧
    (∀ r k e, decode_modified_utf8 q = .error (.decodeError r k e) →
      decode_modified_utf8 (p ++ q) = .error (.decodeError r (p.length + k) (p.length + e))) := by
  constructor
  · intro v hv
    rw [decode_append p q u h, hv]
    rfl
  · intro r k e hq
    rw [decode_append p q u h, hq]
    simp [Res.after, Fault.shift, Nat.add_comm]

/-- Witness of C18 at `p = [C3, A9]` with `q = [41]` and with `q = [41, E0]`. -/
theorem C18_decode_compositional_witness :
    decode_modified_utf8 ([0xC3, 0xA9] ++ [0x41]) = .ok ([0xE9] ++ [0x41]) ∧
    decode_modified_utf8 ([0xC3, 0xA9] ++ [0x41, 0xE0]) =
      .error (.decodeError .Truncated3Byte (2 + 1) (2 + 2)) :=
  ⟨(C18_decode_compositional [0xC3, 0xA9] [0x41] [0xE9] (by decide)).1 [0x41] (by decide),
   (C18_decode_compositional [0xC3, 0xA9] [0x41, 0xE0] [0xE9] (by decide)).2
     .Truncated3Byte 1 2 (by decide)⟩

/-- C19: the exact effect of decoding after encoding. For every codepoint
sequence `s` with no value in `D800-DBFF`, `decode (encode s)` succeeds and is
`s` mapped through `f`, where `f cp = cp` for `cp ≤ 0xFFFF` and
`f cp = 0x10000 | (cp & 0xFFFFF)` for `cp > 0xFFFF`; hence a codepoint above
`0xFFFF` survives the round trip exactly when `cp < 0x100000` and bit 16 of
`cp` is set. -/
theorem C19_decode_after_encode :
    (∀ s : List Nat, (∀ cp ∈ s, ¬ (0xD800 ≤ cp ∧ cp ≤ 0xDBFF)) →
      (encode_modified_utf8 s).bind decode_modified_utf8 = .ok (s.map roundTripImage)) ∧
    (∀ cp, cp > 0xFFFF →
      (roundTripImage cp = cp ↔ cp < 0x100000 ∧ cp.testBit 16 = true)) := by
  refine ⟨?_, roundTripImage_fixed_iff⟩
  intro s hs
  rw [encode_modified_utf8_eq]
  show decode_modified_utf8 (tierEncode s) = _
  rw [decode_modified_utf8_eq_scan]
  exact scan_tierEncode s 0 hs

/-- Witness of C19: a sequence with one codepoint of every tier, among them
the low surrogate U+DC00, U+20000 (bit 16 clear) and U+10FFFF (above
`0xFFFFF`); and the codepoint U+30000, which survives. -/
theorem C19_decode_after_encode_witness :
    (encode_modified_utf8 [0x00, 0x41, 0x7FF, 0xDC00, 0x10000, 0x20000, 0x10FFFF]).bind
        decode_modified_utf8 =
      .ok [0x00, 0x41, 0x7FF, 0xDC00, 0x10000, 0x30000, 0x1FFFF] ∧
    (roundTripImage 0x30000 = 0x30000 ↔ 0x30000 < 0x100000 ∧ Nat.testBit 0x30000 16 = true) :=
  ⟨(C19_decode_after_encode.1 [0x00, 0x41, 0x7FF, 0xDC00, 0x10000, 0x20000, 0x10FFFF]
      (by decide)).trans (by decide),
   C19_decode_after_encode.2 0x30000 (by decide)⟩

/-- C20: the decoder never reads outside its input and always terminates. At
every state the scan reaches with `ix < length b`, the iteration makes no
access outside a buffer (each of its reads at `ix`, `ix+1`, ..., `ix+5` finds
a byte), and if it does not return an error it leaves `ix` strictly larger and
at most `length b`. So the loop ends within `length b` iterations: `decode b`
is a codepoint sequence or one of the four decode errors, never a fault of the
iteration budget, and a larger budget gives the same result. -/
theorem C20_in_bounds_and_terminates (b : List Nat) :
    (∀ n st, decodeSteps b n (decodeInit b) = .ok st → st.ix < b.length →
      decodeIter b st ≠ .error .outOfBounds ∧
      ∀ st1, decodeIter b st = .ok st1 → st.ix < st1.ix ∧ st1.ix ≤ b.length) ∧
    ((∃ u, decode_modified_utf8 b = .ok u) ∨
      ∃ r s, decode_modified_utf8 b = .error (.decodeError r s (s + 1))) ∧
    decodeLoop b b.length (decodeInit b) ≠ .error .outOfFuel ∧
    (∀ fuel, b.length ≤ fuel →
      (decodeLoop b fuel (decodeInit b)).map (fun st => st.cp_out.take st.cp_count) =
        decode_modified_utf8 b) := by
  have hshape : (∃ u, decode_modified_utf8 b = .ok u) ∨
      ∃ r s, decode_modified_utf8 b = .error (.decodeError r s (s + 1)) := by
    cases hd : decode_modified_utf8 b with
    | ok u => exact Or.inl ⟨u, rfl⟩
    | error f =>
      obtain ⟨r, s, hf⟩ := decode_fault_shape b f hd
      exact Or.inr ⟨r, s, by rw [hf]⟩
  refine ⟨?_, hshape, ?_, ?_⟩
  · intro n st hst hlt
    obtain ⟨i1, i2, i3⟩ := decodeSteps_inv b n _ st (decodeInit_inv b).1 (decodeInit_inv b).2.1
      (decodeInit_inv b).2.2 hst
    constructor
    · intro hb
      obtain ⟨r, hf, _⟩ := decodeIter_fault b st _ i1 hlt i3 hb
      cases hf
    · intro st1 h1
      obtain ⟨a, c, _, _⟩ := decodeIter_step b st st1 i1 hlt i3 h1
      exact ⟨a, c⟩
  · intro hb
    have hd : decode_modified_utf8 b = .error .outOfFuel := by
      unfold decode_modified_utf8
      unfold decodeInit at hb
      rw [hb]
    obtain ⟨r, s, hf⟩ := decode_fault_shape b _ hd
    cases hf
  · intro fuel hfuel
    have h := decodeLoop_eq_scan b fuel (decodeInit b) (by simp [decodeInit]; omega)
      (by simp [decodeInit]) (by simp [decodeInit])
    rw [h, decode_modified_utf8_eq_scan]
    simp only [decodeInit, List.drop_zero, List.take_zero, List.nil_append]
    exact Res.map_id_fun _

/-- Witness of C20 at `b = [41, C3, A9, E2, 82, AC]` and the state after one
iteration, from which the next iteration moves `ix` from 1 to 3. -/
theorem C20_in_bounds_and_terminates_witness :
    decodeSteps [0x41, 0xC3, 0xA9, 0xE2, 0x82, 0xAC] 1
        (decodeInit [0x41, 0xC3, 0xA9, 0xE2, 0x82, 0xAC]) =
      .ok ⟨1, [0x41, 0, 0, 0, 0, 0], 1⟩ ∧
    decodeIter [0x41, 0xC3, 0xA9, 0xE2, 0x82, 0xAC] ⟨1, [0x41, 0, 0, 0, 0, 0], 1⟩ =
      .ok ⟨3, [0x41, 0xE9, 0, 0, 0, 0], 2⟩ ∧
    decodeIter [0x41, 0xC3, 0xA9, 0xE2, 0x82, 0xAC] ⟨1, [0x41, 0, 0, 0, 0, 0], 1⟩ ≠
      .error .outOfBounds ∧
    (1 < 3 ∧ 3 ≤ [0x41, 0xC3, 0xA9, 0xE2, 0x82, 0xAC].length) :=
  ⟨by decide, by decide,
   ((C20_in_bounds_and_terminates [0x41, 0xC3, 0xA9, 0xE2, 0x82, 0xAC]).1 1
      ⟨1, [0x41, 0, 0, 0, 0, 0], 1⟩ (by decide) (by decide)).1,
   ((C20_in_bounds_and_terminates [0x41, 0xC3, 0xA9, 0xE2, 0x82, 0xAC]).1 1
      ⟨1, [0x41, 0, 0, 0, 0, 0], 1⟩ (by decide) (by decide)).2
      ⟨3, [0x41, 0xE9, 0, 0, 0, 0], 2⟩ (by decide)⟩

end Cmutf8
